import Mathlib

/-!
# Verification of the `simple_ds` hash map engine (`src/simple_map.h`)

A shallow embedding of the open-addressing, linear-probing hash map of
`simple_map.h` (the `map_*` macro family; the `hash_*` family in the sibling
header implements the same algorithms).

Modelling conventions:
* A slot of the C element array is `Option (Rcd V)`: `none` models a slot whose
  first (`key`) field is the `NULL` sentinel, `some r` an occupied slot. The C
  element struct (a `const char *` key first member plus arbitrary payload) is
  `Rcd V` with a `String` key and a payload of type `V`.
* `size_t` arithmetic is modelled on `Nat`; the djb2 hash reduces every step
  modulo `2 ^ 64` exactly as the C `size_t` accumulator does.
* The C `double` fields `load_factor` and `growth_factor` are modelled as `Rat`;
  the C cast `(size_t)(expr)` (truncation toward zero of a non-negative value)
  is `ratToSizeT`, i.e. `Int.toNat ∘ Rat.floor`.
* Loops that the C code bounds by construction (`_map_get_impl`, which stops
  after a full wrap) get exactly `capacity` fuel; C loops with no wrap guard
  (the probe loops of `map_put_free`, `MAP_RESIZE`, `map_delete_free` and
  `map_delete_impl_idx`) are modelled with fuel and return `none` when the
  fuel runs out, which corresponds to the C loop not terminating (for the
  single-step probe loops, `capacity` probes visit every slot, so exhausting
  `capacity` fuel is exactly C divergence).
* Memory allocation is assumed to succeed (allocation failure is out of scope
  for the claims under verification), and `map_free` is not modelled (it only
  deallocates).
* All functions are pure: a C macro that mutates `tbl` in place is a function
  returning the new map value, and the optional cleanup callback of
  `map_put_free` / `map_delete_free` is modelled by additionally returning the
  list of records the callback would be invoked on, in invocation order.
-/

set_option autoImplicit false

namespace SimpleDS

universe u

/-- A user record stored in the map: the C element struct, whose first member
is the key (`const char *`, here a `String`) followed by an arbitrary payload
(`val : V`). A C slot whose key is `NULL` is represented as `none` at the
slot level, so `Rcd` itself always has a proper key. -/
structure Rcd (V : Type u) where
  key : String
  val : V
  deriving DecidableEq, Repr

/-- The slot array of a map: `capacity` contiguous slots. -/
abbrev Slots (V : Type u) := List (Option (Rcd V))

/-- `MAP_INIT_CAPACITY` -/
def MAP_INIT_CAPACITY : Nat := 16

/-- `MAP_LOAD_FACTOR` (0.75) -/
def MAP_LOAD_FACTOR : Rat := 3 / 4

/-- `MAP_GROWTH_FACTOR_DEFAULT` (2.0) -/
def MAP_GROWTH_FACTOR_DEFAULT : Rat := 2

/-- `MAP_MAGIC_NUMBER` -/
def MAP_MAGIC_NUMBER : Nat := 0xbd5e1df

/-- `size_t` modulus (64-bit). -/
def SIZE_T_MOD : Nat := 2 ^ 64

/-- The hidden `map_header` together with the element array it precedes:
`load_factor`, `growth_factor`, `count`, `magic_number`, and the slot array
(whose length is the header's `capacity` field). -/
structure MapState (V : Type u) where
  load_factor : Rat
  growth_factor : Rat
  count : Nat
  slots : Slots V
  magic_number : Nat
  deriving DecidableEq

/-- The header's `capacity` field: the length of the backing slot array. -/
def MapState.capacity {V : Type u} (m : MapState V) : Nat := m.slots.length

/-- The check performed by the `MAP_HEADER` accessor:
`assert(hdr->magic_number == MAP_MAGIC_NUMBER)`. Every operation that
dereferences a non-null handle goes through `MAP_HEADER`, hence through this
check. -/
def mapHeaderCheck {V : Type u} (m : MapState V) : Bool :=
  m.magic_number == MAP_MAGIC_NUMBER

/-- The C cast `(size_t)q` of a non-negative `double`/real quantity:
truncation toward zero, i.e. the floor. (On negative values the C cast is
undefined behaviour; the model yields 0.) -/
def ratToSizeT (q : Rat) : Nat := q.floor.toNat

/-- djb2: `_hash_string`, iterating `h = h*33 + byte` over the bytes of the
key in `size_t` (64-bit) arithmetic, seed 5381. `(h << 5) + h` is `h * 33`. -/
def hashString (s : String) : Nat :=
  (s.data.flatMap String.utf8EncodeChar).foldl
    (fun h c => (h * 33 + c.toNat) % SIZE_T_MOD) 5381

/-- The natural bucket of a key in a table of `cap` slots. -/
def bucket (key : String) (cap : Nat) : Nat := hashString key % cap

/-- The probe loop of `_map_get_impl`: examine slot `h`; stop with `none` on
an empty slot; return the record on a key match (`strcmp == 0`); otherwise
step to `(h + 1) % capacity`. The C loop stops (returning `NULL`) when `h`
returns to the start bucket, i.e. after `capacity` probes, so fuel
`capacity` models it exactly. -/
def getProbe {V : Type u} (slots : Slots V) (key : String) :
    Nat → Nat → Option (Rcd V)
  | 0, _ => none
  | fuel + 1, h =>
    match slots.getD h none with
    | none => none
    | some r =>
      if r.key = key then some r
      else getProbe slots key fuel ((h + 1) % slots.length)

/-- `_map_get_impl` on a non-null table. -/
def mapGetImpl {V : Type u} (m : MapState V) (key : String) : Option (Rcd V) :=
  getProbe m.slots key m.capacity (bucket key m.capacity)

/-- The `map_get` macro: `NULL` (`none`) on a null table or a null key,
otherwise `_map_get_impl`. -/
def map_get {V : Type u} (tbl : Option (MapState V)) (key : Option String) :
    Option (Rcd V) :=
  match tbl, key with
  | some m, some k => mapGetImpl m k
  | _, _ => none

/-- The empty-slot search loop shared by `MAP_RESIZE` and
`map_delete_impl_idx`: step forward from `h` until an empty slot is found and
return its index. The C loop has no wrap guard; with fuel `capacity` (every
slot visited once), fuel exhaustion is exactly C non-termination. -/
def findEmpty {V : Type u} (slots : Slots V) : Nat → Nat → Option Nat
  | 0, _ => none
  | fuel + 1, h =>
    match slots.getD h none with
    | none => some h
    | some _ => findEmpty slots fuel ((h + 1) % slots.length)

/-- The reinsertion loop of `MAP_RESIZE`: iterate the old slots in index
order; for each occupied slot probe the new array from the record's bucket
under the new capacity for an empty slot, place the record there and bump the
new header's count. -/
def reinsertOld {V : Type u} :
    Slots V → Slots V → Nat → Option (Slots V × Nat)
  | [], ns, cnt => some (ns, cnt)
  | none :: olds, ns, cnt => reinsertOld olds ns cnt
  | some r :: olds, ns, cnt =>
    match findEmpty ns ns.length (bucket r.key ns.length) with
    | none => none
    | some q => reinsertOld olds (ns.set q (some r)) (cnt + 1)

/-- `MAP_RESIZE` on an existing map (the only way the C sources invoke it):
a fresh all-empty block of `newCap` slots, `load_factor`/`growth_factor`
copied forward, `magic_number` set, count recomputed while reinserting every
occupied old slot. -/
def mapResize {V : Type u} (m : MapState V) (newCap : Nat) :
    Option (MapState V) :=
  (reinsertOld m.slots (List.replicate newCap (none : Option (Rcd V))) 0).map
    fun p =>
      { load_factor := m.load_factor
        growth_factor := m.growth_factor
        count := p.2
        slots := p.1
        magic_number := MAP_MAGIC_NUMBER }

/-- A freshly allocated map of capacity `cap`: all slots empty, count 0,
default load and growth factors, magic number set. This is the allocation
performed by `map_put_free` and `map_set_min_capacity` on a null handle. -/
def freshMap (V : Type u) (cap : Nat) : MapState V :=
  { load_factor := MAP_LOAD_FACTOR
    growth_factor := MAP_GROWTH_FACTOR_DEFAULT
    count := 0
    slots := List.replicate cap none
    magic_number := MAP_MAGIC_NUMBER }

/-- The new capacity chosen by the automatic growth path of `map_put_free`:
`(size_t)(capacity * growth_factor)`, bumped to `capacity + 1` whenever that
is not a strict increase. -/
def growCapacity {V : Type u} (m : MapState V) : Nat :=
  if ratToSizeT ((m.capacity : Rat) * m.growth_factor) ≤ m.capacity then
    m.capacity + 1
  else ratToSizeT ((m.capacity : Rat) * m.growth_factor)

/-- The growth trigger of `map_put_free`:
`(count + 1) >= (size_t)(capacity * load_factor)`. -/
def growNeeded {V : Type u} (m : MapState V) : Prop :=
  m.count + 1 ≥ ratToSizeT ((m.capacity : Rat) * m.load_factor)

instance {V : Type u} (m : MapState V) : Decidable (growNeeded m) := by
  unfold growNeeded; infer_instance

/-- The placement loop of `map_put_free`: probe from `h`; an occupied slot
with an equal key is overwritten with `item` (the superseded record is
returned as the second component, for the cleanup callback); the first empty
slot receives `item` (second component `none`; the caller increments
`count`). The C loop has no wrap guard; fuel `capacity` visits every slot
once, so fuel exhaustion is exactly C non-termination (a full table with no
matching key). -/
def putProbe {V : Type u} (slots : Slots V) (item : Rcd V) :
    Nat → Nat → Option (Slots V × Option (Rcd V))
  | 0, _ => none
  | fuel + 1, h =>
    match slots.getD h none with
    | none => some (slots.set h (some item), none)
    | some r =>
      if r.key = item.key then some (slots.set h (some item), some r)
      else putProbe slots item fuel ((h + 1) % slots.length)

/-- The table `map_put_free` operates on after its null check: the incoming
table, or a fresh allocation of `MAP_INIT_CAPACITY` slots when the handle is
null. -/
def putBase {V : Type u} (tbl : Option (MapState V)) : MapState V :=
  match tbl with
  | none => freshMap V MAP_INIT_CAPACITY
  | some m => m

/-- `map_put_free tbl item free_func`. Returns the updated map together with
the list of records the cleanup callback is invoked on (in order); `map_put`
is the same computation with no callback. `none` models C non-termination. -/
def map_put_free {V : Type u} (tbl : Option (MapState V)) (item : Rcd V) :
    Option (MapState V × List (Rcd V)) := do
  let m0 := putBase tbl
  let m1 ← if growNeeded m0 then mapResize m0 (growCapacity m0) else pure m0
  let p ← putProbe m1.slots item m1.capacity (bucket item.key m1.capacity)
  pure ({ m1 with
            slots := p.1
            count := if p.2.isSome then m1.count else m1.count + 1 },
        p.2.toList)

/-- `map_put tbl item` = `map_put_free tbl item NULL`. -/
def map_put {V : Type u} (tbl : Option (MapState V)) (item : Rcd V) :
    Option (MapState V) :=
  (map_put_free tbl item).map (·.1)

/-- `map_set_min_capacity`: on a null handle allocate with capacity
`max(MAP_INIT_CAPACITY, min_cap)`; otherwise resize only if the current
capacity is below `min_cap`. -/
def map_set_min_capacity {V : Type u} (tbl : Option (MapState V))
    (minCap : Nat) : Option (MapState V) :=
  match tbl with
  | none =>
    some (freshMap V (if minCap > MAP_INIT_CAPACITY then minCap
                      else MAP_INIT_CAPACITY))
  | some m => if m.capacity < minCap then mapResize m minCap else some m

/-- `map_set_load_factor`: store the factor in the header (no-op on a null
handle). -/
def map_set_load_factor {V : Type u} (tbl : Option (MapState V)) (f : Rat) :
    Option (MapState V) :=
  tbl.map fun m => { m with load_factor := f }

/-- `map_set_growth_factor`: store the factor in the header (no-op on a null
handle). -/
def map_set_growth_factor {V : Type u} (tbl : Option (MapState V)) (f : Rat) :
    Option (MapState V) :=
  tbl.map fun m => { m with growth_factor := f }

/-- `map_dup`: a byte-for-byte shallow copy of header and slot array, with the
magic number set in the new header (allocation assumed to succeed). -/
def map_dup {V : Type u} (tbl : Option (MapState V)) : Option (MapState V) :=
  match tbl with
  | none => none
  | some m => some { m with magic_number := MAP_MAGIC_NUMBER }

/-- The key-search loop of `map_delete_free`: probe from `h`; `some none`
means the search hit an empty slot (key absent, no mutation), and
`some (some (i, r))` means record `r` with the sought key was found in slot
`i`. Unlike `_map_get_impl` this C loop has no start-bucket wrap guard, so
with fuel `capacity` (every slot visited once) fuel exhaustion is exactly C
non-termination. -/
def findDelete {V : Type u} (slots : Slots V) (key : String) :
    Nat → Nat → Option (Option (Nat × Rcd V))
  | 0, _ => none
  | fuel + 1, h =>
    match slots.getD h none with
    | none => some none
    | some r =>
      if r.key = key then some (some (h, r))
      else findDelete slots key fuel ((h + 1) % slots.length)

/-- The cluster-repair walk of `map_delete_impl_idx`: starting just past the
cleared slot, while slot `j` is occupied: remove its record (`count--` in C),
probe from the record's natural bucket for the first empty slot (possibly `j`
itself), reinsert it there (`count++` in C), and advance. The per-iteration
`count--`/`count++` pair nets to zero (also in C, where `size_t` wraparound
makes the pair an exact identity), so the model does not thread the count.
The C loop is unbounded; fuel exhaustion models non-termination. -/
def deleteWalk {V : Type u} (slots : Slots V) : Nat → Nat → Option (Slots V)
  | 0, _ => none
  | fuel + 1, j =>
    match slots.getD j none with
    | none => some slots
    | some temp =>
      let s2 := slots.set j none
      match findEmpty s2 s2.length (bucket temp.key s2.length) with
      | none => none
      | some q => deleteWalk (s2.set q (some temp)) fuel ((j + 1) % slots.length)

/-- Fuel for the repair walk. The C loop is unbounded (`while (1)`); this
bound exceeds the length of every terminating run of the walk (under the
probing invariant the walk stops within `capacity` steps, proved below), so
fuel exhaustion models C non-termination. -/
def deleteWalkFuel (cap : Nat) : Nat := cap * cap * cap + 2 * cap + 1

/-- `map_delete_impl_idx`: clear slot `idx` (decrementing `count`), then run
the cluster-repair walk from the next slot. -/
def map_delete_impl_idx {V : Type u} (m : MapState V) (idx : Nat) :
    Option (MapState V) :=
  let s1 := m.slots.set idx none
  (deleteWalk s1 (deleteWalkFuel m.capacity) ((idx + 1) % m.capacity)).map
    fun s2 => { m with slots := s2, count := m.count - 1 }

/-- `map_delete_free tbl key free_func`: nothing happens on a null handle;
otherwise search for the key; if found, the callback is invoked on the
element (returned in the list) and the element removed via
`map_delete_impl_idx`. `map_delete` is the same computation with no
callback. -/
def map_delete_free {V : Type u} (tbl : Option (MapState V)) (key : String) :
    Option (Option (MapState V) × List (Rcd V)) :=
  match tbl with
  | none => some (none, [])
  | some m =>
    match findDelete m.slots key m.capacity (bucket key m.capacity) with
    | none => none
    | some none => some (some m, [])
    | some (some (idx, victim)) =>
      (map_delete_impl_idx m idx).map fun m2 => (some m2, [victim])

/-- `map_delete tbl key` = `map_delete_free tbl key NULL`. -/
def map_delete {V : Type u} (tbl : Option (MapState V)) (key : String) :
    Option (Option (MapState V)) :=
  (map_delete_free tbl key).map (·.1)

/-- Number of occupied (non-`NULL`-key) slots. -/
def numOccupied {V : Type u} (l : Slots V) : Nat := l.countP (·.isSome)

/-- A record is stored in a slot array if some slot holds it. -/
def storedIn {V : Type u} (l : Slots V) (r : Rcd V) : Prop :=
  ∃ p, l.getD p none = some r

/-! ## Basic slot-array lemmas -/

section SlotLemmas

variable {V : Type u}

theorem slot_lt_of_some {l : Slots V} {p : Nat} {r : Rcd V}
    (h : l.getD p none = some r) : p < l.length := by
  by_contra hge
  rw [List.getD_eq_getElem?_getD, List.getElem?_eq_none (by omega)] at h
  simp at h

theorem slot_set_self {l : Slots V} {p : Nat} (hp : p < l.length)
    (a : Option (Rcd V)) : (l.set p a).getD p none = a := by
  rw [List.getD_eq_getElem?_getD, List.getElem?_set_self (by simpa using hp)]
  rfl

theorem slot_set_ne {l : Slots V} {p q : Nat} (h : p ≠ q)
    (a : Option (Rcd V)) : (l.set p a).getD q none = l.getD q none := by
  rw [List.getD_eq_getElem?_getD, List.getElem?_set_ne h,
    ← List.getD_eq_getElem?_getD]

theorem slot_replicate (cap p : Nat) :
    (List.replicate cap (none : Option (Rcd V))).getD p none = none := by
  rw [List.getD_eq_getElem?_getD]
  rcases Nat.lt_or_ge p cap with h | h
  · rw [List.getElem?_eq_getElem (by simpa using h)]
    simp [List.getElem_replicate]
  · rw [List.getElem?_eq_none (by simpa using h)]
    rfl

theorem numOccupied_le {l : Slots V} : numOccupied l ≤ l.length :=
  List.countP_le_length _

theorem numOccupied_replicate (cap : Nat) :
    numOccupied (List.replicate cap (none : Option (Rcd V))) = 0 := by
  induction cap with
  | zero => rfl
  | succ n ih => simpa [numOccupied, List.replicate_succ] using ih

theorem numOccupied_set_none {l : Slots V} {p : Nat} {r : Rcd V}
    (h : l.getD p none = some r) :
    numOccupied (l.set p none) + 1 = numOccupied l := by
  induction l generalizing p with
  | nil => simp [List.getD] at h
  | cons o t ih =>
    cases p with
    | zero =>
      simp only [List.getD_cons_zero] at h
      subst h
      simp [numOccupied, List.set]
    | succ q =>
      simp only [List.getD_cons_succ] at h
      have := ih h
      simp only [numOccupied, List.set, List.countP_cons] at *
      omega

theorem numOccupied_set_some {l : Slots V} {p : Nat} (r : Rcd V)
    (hp : p < l.length) (h : l.getD p none = none) :
    numOccupied (l.set p (some r)) = numOccupied l + 1 := by
  induction l generalizing p with
  | nil => simp at hp
  | cons o t ih =>
    cases p with
    | zero =>
      simp only [List.getD_cons_zero] at h
      subst h
      simp [numOccupied, List.set]
    | succ q =>
      simp only [List.getD_cons_succ] at h
      simp only [List.length_cons, Nat.succ_lt_succ_iff] at hp
      have := ih hp h
      simp only [numOccupied, List.set, List.countP_cons] at *
      omega

theorem exists_empty_of_occ_lt {l : Slots V} (h : numOccupied l < l.length) :
    ∃ p, p < l.length ∧ l.getD p none = none := by
  have : ¬ ∀ o ∈ l, ((fun x : Option (Rcd V) => x.isSome) o : Prop) := by
    intro hall
    have hlen : l.countP (·.isSome) = l.length := List.countP_eq_length.mpr hall
    simp only [numOccupied] at h
    omega
  push_neg at this
  obtain ⟨o, hmem, hno⟩ := this
  have : o = none := by
    cases o with
    | none => rfl
    | some r => simp at hno
  subst this
  obtain ⟨p, hp, hget⟩ := List.mem_iff_getElem.mp hmem
  refine ⟨p, hp, ?_⟩
  rw [List.getD_eq_getElem?_getD, List.getElem?_eq_getElem hp, hget]
  rfl

end SlotLemmas

/-! ## Cyclic distance

Probe sequences step through `(h + t) % cap`. `cdist cap a b` is the number
of forward steps from slot `a` to slot `b` (both below `cap`). -/

/-- Forward cyclic distance from `a` to `b` in a table of `cap` slots. -/
def cdist (cap a b : Nat) : Nat := if a ≤ b then b - a else b + cap - a

section CdistLemmas

theorem mod_eq_sub_of_lt_two {cap x : Nat} (h1 : cap ≤ x) (h2 : x < 2 * cap) :
    x % cap = x - cap := by
  rw [Nat.mod_eq_sub_mod h1, Nat.mod_eq_of_lt (by omega)]

theorem cdist_lt {cap a b : Nat} (hcap : 0 < cap) (ha : a < cap)
    (hb : b < cap) : cdist cap a b < cap := by
  unfold cdist; split <;> omega

theorem cdist_probe {cap a t : Nat} (ha : a < cap) (ht : t < cap) :
    cdist cap a ((a + t) % cap) = t := by
  rcases Nat.lt_or_ge (a + t) cap with h | h
  · rw [Nat.mod_eq_of_lt h]
    unfold cdist; split <;> omega
  · rw [mod_eq_sub_of_lt_two h (by omega)]
    unfold cdist; split <;> omega

theorem probe_cdist {cap a b : Nat} (ha : a < cap) (hb : b < cap) :
    (a + cdist cap a b) % cap = b := by
  unfold cdist
  split
  · rw [Nat.mod_eq_of_lt (by omega)]; omega
  · rw [mod_eq_sub_of_lt_two (by omega) (by omega)]; omega

theorem probe_inj {cap a t1 t2 : Nat} (ha : a < cap) (h1 : t1 < cap)
    (h2 : t2 < cap) (h : (a + t1) % cap = (a + t2) % cap) : t1 = t2 := by
  have e1 := cdist_probe ha h1
  have e2 := cdist_probe ha h2
  rw [h] at e1; omega

theorem probe_lt {cap a t : Nat} (hcap : 0 < cap) : (a + t) % cap < cap :=
  Nat.mod_lt _ hcap

theorem cdist_probe_general {cap a : Nat} (hcap : 0 < cap) (ha : a < cap)
    (w : Nat) : cdist cap a ((a + w) % cap) = w % cap := by
  have h1 : (a + w) % cap = (a + w % cap) % cap := by
    conv_rhs => rw [Nat.add_mod, Nat.mod_mod, ← Nat.add_mod]
  rw [h1]
  exact cdist_probe ha (Nat.mod_lt _ hcap)

/-- Additivity of the cyclic distance. -/
theorem cdist_add {cap x y z : Nat} (hcap : 0 < cap) (hx : x < cap)
    (hy : y < cap) (hz : z < cap) :
    cdist cap x z = (cdist cap x y + cdist cap y z) % cap := by
  have h2 : (x + cdist cap x y) % cap = y := probe_cdist hx hy
  have h3 : (y + cdist cap y z) % cap = z := probe_cdist hy hz
  have h1 : z = (x + (cdist cap x y + cdist cap y z)) % cap := by
    rw [← Nat.add_assoc, ← Nat.mod_add_mod, h2, h3]
  conv_lhs => rw [h1]
  rw [cdist_probe_general hcap hx]

/-- Stepping the probe start: position `u` of the probe starting at
`(a + 1) % cap` is position `u + 1` of the probe starting at `a`. -/
theorem probe_step {cap a u : Nat} :
    ((a + 1) % cap + u) % cap = (a + (u + 1)) % cap := by
  rw [Nat.mod_add_mod]
  ring_nf

end CdistLemmas

/-! ## Probe-loop characterizations -/

section ProbeLemmas

variable {V : Type u}

/-- If the probe path from `h` passes `k` occupied slots with non-matching
keys and slot `k` holds a record with the sought key, `getProbe` returns that
record. -/
theorem getProbe_finds {slots : Slots V} {key : String} {k fuel h : Nat}
    {r : Rcd V} (hh : h < slots.length) (hkf : k < fuel)
    (hrun : ∀ t, t < k → ∃ r', slots.getD ((h + t) % slots.length) none = some r' ∧
      r'.key ≠ key)
    (hit : slots.getD ((h + k) % slots.length) none = some r)
    (hkey : r.key = key) :
    getProbe slots key fuel h = some r := by
  induction k generalizing fuel h with
  | zero =>
    cases fuel with
    | zero => omega
    | succ f =>
      simp only [Nat.add_zero, Nat.mod_eq_of_lt hh] at hit
      simp only [getProbe, hit, hkey, if_pos]
  | succ k ih =>
    cases fuel with
    | zero => omega
    | succ f =>
      obtain ⟨r0, hr0, hr0k⟩ := hrun 0 (by omega)
      simp only [Nat.add_zero, Nat.mod_eq_of_lt hh] at hr0
      simp only [getProbe, hr0, if_neg hr0k]
      have hlen : 0 < slots.length := by omega
      refine ih (probe_lt hlen) (by omega) ?_ ?_
      · intro t ht
        rw [probe_step]
        exact hrun (t + 1) (by omega)
      · rw [probe_step]
        exact hit

/-- If the probe path from `h` passes `k` occupied slots with non-matching
keys and slot `k` is empty, `getProbe` returns `none`. -/
theorem getProbe_stops_empty {slots : Slots V} {key : String} {k fuel h : Nat}
    (hh : h < slots.length) (hkf : k < fuel)
    (hrun : ∀ t, t < k → ∃ r', slots.getD ((h + t) % slots.length) none = some r' ∧
      r'.key ≠ key)
    (hempty : slots.getD ((h + k) % slots.length) none = none) :
    getProbe slots key fuel h = none := by
  induction k generalizing fuel h with
  | zero =>
    cases fuel with
    | zero => omega
    | succ f =>
      simp only [Nat.add_zero, Nat.mod_eq_of_lt hh] at hempty
      simp only [getProbe, hempty]
  | succ k ih =>
    cases fuel with
    | zero => omega
    | succ f =>
      obtain ⟨r0, hr0, hr0k⟩ := hrun 0 (by omega)
      simp only [Nat.add_zero, Nat.mod_eq_of_lt hh] at hr0
      simp only [getProbe, hr0, if_neg hr0k]
      have hlen : 0 < slots.length := by omega
      refine ih (probe_lt hlen) (by omega) ?_ ?_
      · intro t ht
        rw [probe_step]
        exact hrun (t + 1) (by omega)
      · rw [probe_step]
        exact hempty

/-- Whatever `getProbe` returns is stored in some slot and has the sought
key. -/
theorem getProbe_some {slots : Slots V} {key : String} {fuel h : Nat}
    {r : Rcd V} (hres : getProbe slots key fuel h = some r) :
    storedIn slots r ∧ r.key = key := by
  induction fuel generalizing h with
  | zero => simp [getProbe] at hres
  | succ f ih =>
    rcases hslot : slots.getD h none with _ | r'
    · simp only [getProbe, hslot] at hres
      exact absurd hres (by simp)
    · simp only [getProbe, hslot] at hres
      by_cases hk : r'.key = key
      · rw [if_pos hk] at hres
        obtain rfl : r' = r := by simpa using hres
        exact ⟨⟨h, hslot⟩, hk⟩
      · rw [if_neg hk] at hres
        exact ih hres

/-- If no stored record has the sought key, `getProbe` returns `none`. -/
theorem getProbe_none_of_absent {slots : Slots V} {key : String}
    {fuel h : Nat}
    (habs : ∀ p r, slots.getD p none = some r → r.key ≠ key) :
    getProbe slots key fuel h = none := by
  induction fuel generalizing h with
  | zero => rfl
  | succ f ih =>
    rcases hslot : slots.getD h none with _ | r'
    · simp only [getProbe, hslot]
    · simp only [getProbe, hslot, if_neg (habs h r' hslot)]
      exact ih

/-- If the probe path from `h` passes `k` occupied slots and slot `k` is
empty, `findEmpty` returns the index of slot `k`. -/
theorem findEmpty_at {slots : Slots V} {k fuel h : Nat}
    (hh : h < slots.length) (hkf : k < fuel)
    (hrun : ∀ t, t < k → (slots.getD ((h + t) % slots.length) none).isSome)
    (hempty : slots.getD ((h + k) % slots.length) none = none) :
    findEmpty slots fuel h = some ((h + k) % slots.length) := by
  induction k generalizing fuel h with
  | zero =>
    cases fuel with
    | zero => omega
    | succ f =>
      simp only [Nat.add_zero, Nat.mod_eq_of_lt hh] at hempty ⊢
      simp only [findEmpty, hempty]
  | succ k ih =>
    cases fuel with
    | zero => omega
    | succ f =>
      have hr0 := hrun 0 (by omega)
      simp only [Nat.add_zero, Nat.mod_eq_of_lt hh] at hr0
      obtain ⟨r0, hr0⟩ := Option.isSome_iff_exists.mp hr0
      simp only [findEmpty, hr0]
      have hlen : 0 < slots.length := by omega
      refine Eq.trans (ih (probe_lt hlen) (by omega) ?_ ?_) ?_
      · intro t ht
        rw [probe_step]
        exact hrun (t + 1) (by omega)
      · rw [probe_step]
        exact hempty
      · rw [probe_step]

/-- Whatever index `findEmpty` returns denotes an empty slot, reached from
`h` by a run of occupied slots. -/
theorem findEmpty_some {slots : Slots V} {fuel h q : Nat}
    (hh : h < slots.length) (hres : findEmpty slots fuel h = some q) :
    slots.getD q none = none ∧
      ∃ k, k < fuel ∧ q = (h + k) % slots.length ∧
        ∀ t, t < k → (slots.getD ((h + t) % slots.length) none).isSome := by
  induction fuel generalizing h with
  | zero => simp [findEmpty] at hres
  | succ f ih =>
    rcases hslot : slots.getD h none with _ | r0
    · simp only [findEmpty, hslot] at hres
      obtain rfl : h = q := by simpa using hres
      refine ⟨hslot, 0, by omega, by simp [Nat.mod_eq_of_lt hh], ?_⟩
      intro t ht; omega
    · simp only [findEmpty, hslot] at hres
      have hlen : 0 < slots.length := by omega
      obtain ⟨hq, k, hkf, hqe, hrun⟩ := ih (probe_lt hlen) hres
      refine ⟨hq, k + 1, by omega, ?_, ?_⟩
      · rw [probe_step] at hqe
        exact hqe
      · intro t ht
        cases t with
        | zero =>
          rw [Nat.add_zero, Nat.mod_eq_of_lt hh, hslot]
          rfl
        | succ s =>
          rw [← probe_step]
          exact hrun s (by omega)

/-- If some slot is empty, `findEmpty` with at least `capacity` fuel
succeeds, and it stops at the first empty slot on the probe path. -/
theorem findEmpty_success {slots : Slots V} {fuel h : Nat}
    (hh : h < slots.length) (hfuel : slots.length ≤ fuel)
    (hex : ∃ p, p < slots.length ∧ slots.getD p none = none) :
    ∃ k, k < slots.length ∧
      (∀ t, t < k → (slots.getD ((h + t) % slots.length) none).isSome) ∧
      slots.getD ((h + k) % slots.length) none = none ∧
      findEmpty slots fuel h = some ((h + k) % slots.length) := by
  obtain ⟨p, hp, hpe⟩ := hex
  have hex2 : ∃ t, slots.getD ((h + t) % slots.length) none = none := by
    refine ⟨cdist slots.length h p, ?_⟩
    rw [probe_cdist hh hp]
    exact hpe
  classical
  set k := Nat.find hex2 with hk
  have hkspec : slots.getD ((h + k) % slots.length) none = none := Nat.find_spec hex2
  have hkmin : ∀ t, t < k → ¬ slots.getD ((h + t) % slots.length) none = none :=
    fun t ht => Nat.find_min hex2 ht
  have hkle : k ≤ cdist slots.length h p := by
    apply Nat.find_min'
    rw [probe_cdist hh hp]
    exact hpe
  have hkc : k < slots.length := by
    have := cdist_lt (by omega) hh hp
    omega
  refine ⟨k, hkc, ?_, hkspec, ?_⟩
  · intro t ht
    exact Option.ne_none_iff_isSome.mp (hkmin t ht)
  · exact findEmpty_at hh (by omega)
      (fun t ht => Option.ne_none_iff_isSome.mp (hkmin t ht)) hkspec

/-- If the probe path from `h` passes `k` occupied slots with non-matching
keys and slot `k` is empty, `putProbe` places the item there. -/
theorem putProbe_at_empty {slots : Slots V} {item : Rcd V} {k fuel h : Nat}
    (hh : h < slots.length) (hkf : k < fuel)
    (hrun : ∀ t, t < k → ∃ r', slots.getD ((h + t) % slots.length) none = some r' ∧
      r'.key ≠ item.key)
    (hempty : slots.getD ((h + k) % slots.length) none = none) :
    putProbe slots item fuel h =
      some (slots.set ((h + k) % slots.length) (some item), none) := by
  induction k generalizing fuel h with
  | zero =>
    cases fuel with
    | zero => omega
    | succ f =>
      simp only [Nat.add_zero, Nat.mod_eq_of_lt hh] at hempty ⊢
      simp only [putProbe, hempty]
  | succ k ih =>
    cases fuel with
    | zero => omega
    | succ f =>
      obtain ⟨r0, hr0, hr0k⟩ := hrun 0 (by omega)
      simp only [Nat.add_zero, Nat.mod_eq_of_lt hh] at hr0
      simp only [putProbe, hr0, if_neg hr0k]
      have hlen : 0 < slots.length := by omega
      refine Eq.trans (ih (probe_lt hlen) (by omega) ?_ ?_) ?_
      · intro t ht
        rw [probe_step]
        exact hrun (t + 1) (by omega)
      · rw [probe_step]
        exact hempty
      · rw [probe_step]

/-- If the probe path from `h` passes `k` occupied slots with non-matching
keys and slot `k` holds a record with the item's key, `putProbe` overwrites
that slot and reports the superseded record. -/
theorem putProbe_at_update {slots : Slots V} {item : Rcd V} {k fuel h : Nat}
    {r : Rcd V} (hh : h < slots.length) (hkf : k < fuel)
    (hrun : ∀ t, t < k → ∃ r', slots.getD ((h + t) % slots.length) none = some r' ∧
      r'.key ≠ item.key)
    (hit : slots.getD ((h + k) % slots.length) none = some r)
    (hkey : r.key = item.key) :
    putProbe slots item fuel h =
      some (slots.set ((h + k) % slots.length) (some item), some r) := by
  induction k generalizing fuel h with
  | zero =>
    cases fuel with
    | zero => omega
    | succ f =>
      simp only [Nat.add_zero, Nat.mod_eq_of_lt hh] at hit ⊢
      simp only [putProbe, hit, hkey, if_pos]
  | succ k ih =>
    cases fuel with
    | zero => omega
    | succ f =>
      obtain ⟨r0, hr0, hr0k⟩ := hrun 0 (by omega)
      simp only [Nat.add_zero, Nat.mod_eq_of_lt hh] at hr0
      simp only [putProbe, hr0, if_neg hr0k]
      have hlen : 0 < slots.length := by omega
      refine Eq.trans (ih (probe_lt hlen) (by omega) ?_ ?_) ?_
      · intro t ht
        rw [probe_step]
        exact hrun (t + 1) (by omega)
      · rw [probe_step]
        exact hit
      · rw [probe_step]

/-- Soundness of `putProbe`: on success the result is the input array with
the item placed at the stopping slot of the probe path, which was either
empty (no superseded record) or held a record with the item's key (returned
for the callback). -/
theorem putProbe_some {slots : Slots V} {item : Rcd V} {fuel h : Nat}
    {ns : Slots V} {fr : Option (Rcd V)} (hh : h < slots.length)
    (hres : putProbe slots item fuel h = some (ns, fr)) :
    ∃ k, k < fuel ∧
      (∀ t, t < k → ∃ r', slots.getD ((h + t) % slots.length) none = some r' ∧
        r'.key ≠ item.key) ∧
      ns = slots.set ((h + k) % slots.length) (some item) ∧
      ((fr = none ∧ slots.getD ((h + k) % slots.length) none = none) ∨
       (∃ r, fr = some r ∧ slots.getD ((h + k) % slots.length) none = some r ∧
         r.key = item.key)) := by
  induction fuel generalizing h with
  | zero => simp [putProbe] at hres
  | succ f ih =>
    rcases hslot : slots.getD h none with _ | r0
    · simp only [putProbe, hslot] at hres
      obtain ⟨rfl, rfl⟩ : slots.set h (some item) = ns ∧ none = fr := by
        simpa [eq_comm] using hres
      refine ⟨0, by omega, fun t ht => by omega, ?_, Or.inl ⟨rfl, ?_⟩⟩ <;>
        simp only [Nat.add_zero, Nat.mod_eq_of_lt hh]
      · exact hslot
    · simp only [putProbe, hslot] at hres
      by_cases hk : r0.key = item.key
      · rw [if_pos hk] at hres
        obtain ⟨rfl, rfl⟩ : slots.set h (some item) = ns ∧ some r0 = fr := by
          simpa [eq_comm] using hres
        refine ⟨0, by omega, fun t ht => by omega, ?_, Or.inr ⟨r0, rfl, ?_, hk⟩⟩ <;>
          simp only [Nat.add_zero, Nat.mod_eq_of_lt hh]
        · exact hslot
      · rw [if_neg hk] at hres
        obtain ⟨k, hkf, hrun, hns, hcase⟩ := ih (probe_lt (by
          have := slot_lt_of_some hslot; omega)) hres
        refine ⟨k + 1, by omega, ?_, ?_, ?_⟩
        · intro t ht
          cases t with
          | zero =>
            simp only [Nat.add_zero, Nat.mod_eq_of_lt hh]
            exact ⟨r0, hslot, hk⟩
          | succ s =>
            rw [← probe_step]
            exact hrun s (by omega)
        · rw [← probe_step]
          exact hns
        · rw [← probe_step]
          exact hcase

/-- If some slot is empty, `putProbe` with at least `capacity` fuel
succeeds. -/
theorem putProbe_success {slots : Slots V} {item : Rcd V} {fuel h : Nat}
    (hh : h < slots.length) (hfuel : slots.length ≤ fuel)
    (hex : ∃ p, p < slots.length ∧ slots.getD p none = none) :
    (putProbe slots item fuel h).isSome := by
  classical
  obtain ⟨p, hp, hpe⟩ := hex
  have hex2 : ∃ t, (match slots.getD ((h + t) % slots.length) none with
      | none => true
      | some r => r.key == item.key) = true := by
    refine ⟨cdist slots.length h p, ?_⟩
    rw [probe_cdist hh hp, hpe]
  set k := Nat.find hex2 with hk
  have hkspec := Nat.find_spec hex2
  have hkmin := fun t (ht : t < k) => Nat.find_min hex2 ht
  have hkle : k ≤ cdist slots.length h p := by
    apply Nat.find_min'
    rw [probe_cdist hh hp, hpe]
  have hkc : k < slots.length := by
    have := cdist_lt (by omega) hh hp
    omega
  have hrun : ∀ t, t < k → ∃ r', slots.getD ((h + t) % slots.length) none = some r' ∧
      r'.key ≠ item.key := by
    intro t ht
    have := hkmin t ht
    rcases hslot : slots.getD ((h + t) % slots.length) none with _ | r'
    · rw [hslot] at this
      simp at this
    · rw [hslot] at this
      refine ⟨r', rfl, ?_⟩
      intro hkeq
      apply this
      simpa using hkeq
  rcases hslot : slots.getD ((h + k) % slots.length) none with _ | r0
  · rw [putProbe_at_empty hh (by omega) hrun hslot]
    rfl
  · rw [hslot] at hkspec
    have hkeq : r0.key = item.key := by simpa using hkspec
    rw [putProbe_at_update hh (by omega) hrun hslot hkeq]
    rfl

/-- If the probe path from `h` passes `k` occupied slots with non-matching
keys and slot `k` holds a record with the sought key, the deletion search
finds it there. -/
theorem findDelete_at_found {slots : Slots V} {key : String} {k fuel h : Nat}
    {r : Rcd V} (hh : h < slots.length) (hkf : k < fuel)
    (hrun : ∀ t, t < k → ∃ r', slots.getD ((h + t) % slots.length) none = some r' ∧
      r'.key ≠ key)
    (hit : slots.getD ((h + k) % slots.length) none = some r)
    (hkey : r.key = key) :
    findDelete slots key fuel h = some (some ((h + k) % slots.length, r)) := by
  induction k generalizing fuel h with
  | zero =>
    cases fuel with
    | zero => omega
    | succ f =>
      simp only [Nat.add_zero, Nat.mod_eq_of_lt hh] at hit ⊢
      simp only [findDelete, hit, hkey, if_pos]
  | succ k ih =>
    cases fuel with
    | zero => omega
    | succ f =>
      obtain ⟨r0, hr0, hr0k⟩ := hrun 0 (by omega)
      simp only [Nat.add_zero, Nat.mod_eq_of_lt hh] at hr0
      simp only [findDelete, hr0, if_neg hr0k]
      have hlen : 0 < slots.length := by omega
      refine Eq.trans (ih (probe_lt hlen) (by omega) ?_ ?_) ?_
      · intro t ht
        rw [probe_step]
        exact hrun (t + 1) (by omega)
      · rw [probe_step]
        exact hit
      · rw [probe_step]

/-- If the probe path from `h` passes `k` occupied slots with non-matching
keys and slot `k` is empty, the deletion search reports "not found". -/
theorem findDelete_at_empty {slots : Slots V} {key : String} {k fuel h : Nat}
    (hh : h < slots.length) (hkf : k < fuel)
    (hrun : ∀ t, t < k → ∃ r', slots.getD ((h + t) % slots.length) none = some r' ∧
      r'.key ≠ key)
    (hempty : slots.getD ((h + k) % slots.length) none = none) :
    findDelete slots key fuel h = some none := by
  induction k generalizing fuel h with
  | zero =>
    cases fuel with
    | zero => omega
    | succ f =>
      simp only [Nat.add_zero, Nat.mod_eq_of_lt hh] at hempty
      simp only [findDelete, hempty]
  | succ k ih =>
    cases fuel with
    | zero => omega
    | succ f =>
      obtain ⟨r0, hr0, hr0k⟩ := hrun 0 (by omega)
      simp only [Nat.add_zero, Nat.mod_eq_of_lt hh] at hr0
      simp only [findDelete, hr0, if_neg hr0k]
      have hlen : 0 < slots.length := by omega
      refine ih (probe_lt hlen) (by omega) ?_ ?_
      · intro t ht
        rw [probe_step]
        exact hrun (t + 1) (by omega)
      · rw [probe_step]
        exact hempty

/-- Soundness of the deletion search: a "found" result names an occupied
slot holding a record with the sought key. -/
theorem findDelete_found_some {slots : Slots V} {key : String} {fuel h : Nat}
    {idx : Nat} {r : Rcd V}
    (hres : findDelete slots key fuel h = some (some (idx, r))) :
    slots.getD idx none = some r ∧ r.key = key := by
  induction fuel generalizing h with
  | zero => simp [findDelete] at hres
  | succ f ih =>
    rcases hslot : slots.getD h none with _ | r0
    · simp only [findDelete, hslot] at hres
      exact absurd hres (by simp)
    · simp only [findDelete, hslot] at hres
      by_cases hk : r0.key = key
      · rw [if_pos hk] at hres
        obtain ⟨rfl, rfl⟩ : h = idx ∧ r0 = r := by simpa using hres
        exact ⟨hslot, hk⟩
      · rw [if_neg hk] at hres
        exact ih hres

end ProbeLemmas

/-! ## The probing invariant

A well-formed table (as produced by the engine itself) satisfies:
the stored count is exactly the number of occupied slots and is strictly
below the capacity, keys are unique, and every record sits at the end of a
contiguous occupied probe run starting at its natural bucket (the invariant
stated in the spec's data model). -/

/-- The key stored in slot `p`, if any. -/
def keyAt {V : Type u} (l : Slots V) (p : Nat) : Option String :=
  (l.getD p none).map (·.key)

/-- No two occupied slots hold the same key. -/
def keysUniq {V : Type u} (l : Slots V) : Prop :=
  ∀ p, p < l.length → ∀ q, q < l.length →
    (keyAt l p).isSome = true → keyAt l p = keyAt l q → p = q

/-- The natural bucket of the record in slot `p` (0 for an empty slot). -/
def slotBucket {V : Type u} (l : Slots V) (p : Nat) : Nat :=
  match l.getD p none with
  | none => 0
  | some r => bucket r.key l.length

/-- The probe distance from the natural bucket of the record in slot `p` to
`p` (0 for an empty slot). -/
def slotDist {V : Type u} (l : Slots V) (p : Nat) : Nat :=
  match l.getD p none with
  | none => 0
  | some _ => cdist l.length (slotBucket l p) p

/-- Every record is reachable from its natural bucket by a contiguous run of
occupied slots. -/
def reachInv {V : Type u} (l : Slots V) : Prop :=
  ∀ p, p < l.length → ∀ t, t < slotDist l p →
    (l.getD ((slotBucket l p + t) % l.length) none).isSome = true

/-- Well-formedness of an engine-produced map. -/
def WF {V : Type u} (m : MapState V) : Prop :=
  0 < m.capacity ∧
  m.count = numOccupied m.slots ∧
  numOccupied m.slots < m.capacity ∧
  keysUniq m.slots ∧
  reachInv m.slots ∧
  m.magic_number = MAP_MAGIC_NUMBER

instance {V : Type u} (m : MapState V) : Decidable (WF m) := by
  unfold WF keysUniq reachInv MapState.capacity
  infer_instance

section InvLemmas

variable {V : Type u}

theorem keysUniq_ext {l : Slots V} (hu : keysUniq l) {p q : Nat}
    {rp rq : Rcd V} (hp : l.getD p none = some rp)
    (hq : l.getD q none = some rq) (hk : rp.key = rq.key) : p = q := by
  refine hu p (slot_lt_of_some hp) q (slot_lt_of_some hq) ?_ ?_ <;>
    simp only [keyAt, hp, hq, Option.map_some', Option.isSome_some, hk]

theorem keysUniq_of {l : Slots V}
    (h : ∀ p q rp rq, l.getD p none = some rp → l.getD q none = some rq →
      rp.key = rq.key → p = q) : keysUniq l := by
  intro p hp q hq hs he
  rcases hrp : l.getD p none with _ | rp
  · simp only [keyAt, hrp, Option.map_none', Option.isSome_none] at hs
    exact absurd hs (by simp)
  · rcases hrq : l.getD q none with _ | rq
    · simp only [keyAt, hrp, hrq, Option.map_some', Option.map_none'] at he
      exact absurd he (by simp)
    · refine h p q rp rq hrp hrq ?_
      simp only [keyAt, hrp, hrq, Option.map_some', Option.some_inj] at he
      exact he

theorem reachInv_ext {l : Slots V} (hr : reachInv l) {p : Nat} {r : Rcd V}
    (hp : l.getD p none = some r) :
    ∀ t, t < cdist l.length (bucket r.key l.length) p →
      (l.getD ((bucket r.key l.length + t) % l.length) none).isSome = true := by
  have h1 := hr p (slot_lt_of_some hp)
  simp only [slotBucket, slotDist, hp] at h1
  exact h1

theorem reachInv_of {l : Slots V}
    (h : ∀ p r, l.getD p none = some r →
      ∀ t, t < cdist l.length (bucket r.key l.length) p →
        (l.getD ((bucket r.key l.length + t) % l.length) none).isSome = true) :
    reachInv l := by
  intro p hp t
  rcases hrp : l.getD p none with _ | r
  · simp only [slotDist, hrp]
    omega
  · simp only [slotBucket, slotDist, hrp]
    exact h p r hrp t

/-- An all-empty slot array is trivially well-behaved. -/
theorem keysUniq_replicate (cap : Nat) :
    keysUniq (List.replicate cap (none : Option (Rcd V))) := by
  intro p hp q hq hs
  rw [keyAt, slot_replicate] at hs
  simp at hs

theorem reachInv_replicate (cap : Nat) :
    reachInv (List.replicate cap (none : Option (Rcd V))) := by
  intro p hp t ht
  rw [slotDist, slot_replicate] at ht
  simp at ht

theorem WF_freshMap {cap : Nat} (hcap : 0 < cap) : WF (freshMap V cap) := by
  refine ⟨?_, ?_, ?_, ?_, ?_, rfl⟩
  · simpa [freshMap, MapState.capacity] using hcap
  · simp [freshMap, numOccupied_replicate]
  · simpa [freshMap, MapState.capacity, numOccupied_replicate] using hcap
  · exact keysUniq_replicate cap
  · exact reachInv_replicate cap

end InvLemmas

/-! ## Lookup characterization -/

section GetLemmas

variable {V : Type u}

/-- Under the probing invariant, `_map_get_impl` finds every stored
record. -/
theorem getImpl_finds {m : MapState V} (hcap : 0 < m.capacity)
    (hu : keysUniq m.slots) (hr : reachInv m.slots) {p : Nat} {r : Rcd V}
    (hp : m.slots.getD p none = some r) : mapGetImpl m r.key = some r := by
  have hplt : p < m.slots.length := slot_lt_of_some hp
  have hcap' : 0 < m.slots.length := hcap
  set h0 := bucket r.key m.slots.length with hh0
  have hh0lt : h0 < m.slots.length := Nat.mod_lt _ hcap'
  set k := cdist m.slots.length h0 p with hkdef
  have hklt : k < m.slots.length := cdist_lt hcap' hh0lt hplt
  have hit : m.slots.getD ((h0 + k) % m.slots.length) none = some r := by
    rw [hkdef, probe_cdist hh0lt hplt]
    exact hp
  have hrun : ∀ t, t < k →
      ∃ r', m.slots.getD ((h0 + t) % m.slots.length) none = some r' ∧
        r'.key ≠ r.key := by
    intro t ht
    have hsome := reachInv_ext hr hp t (by rw [← hh0, ← hkdef] at *; exact ht)
    obtain ⟨r', hr'⟩ := Option.isSome_iff_exists.mp hsome
    refine ⟨r', by rw [← hh0] at hr'; exact hr', ?_⟩
    intro hkeq
    have := keysUniq_ext hu (by rw [← hh0] at hr'; exact hr') hp hkeq
    have ht' : (h0 + t) % m.slots.length = (h0 + k) % m.slots.length := by
      rw [hkdef, probe_cdist hh0lt hplt]
      exact this
    have := probe_inj hh0lt (by omega) hklt ht'
    omega
  exact getProbe_finds hh0lt hklt hrun hit rfl

/-- `_map_get_impl` returns `none` when no stored record has the key. -/
theorem getImpl_none {m : MapState V} {key : String}
    (habs : ∀ p r, m.slots.getD p none = some r → r.key ≠ key) :
    mapGetImpl m key = none :=
  getProbe_none_of_absent habs

/-- Whatever `_map_get_impl` returns is stored and has the sought key. -/
theorem getImpl_some {m : MapState V} {key : String} {r : Rcd V}
    (h : mapGetImpl m key = some r) : storedIn m.slots r ∧ r.key = key :=
  getProbe_some h

/-- Under the probing invariant, lookup succeeds exactly on stored
records. -/
theorem getImpl_iff {m : MapState V} (hcap : 0 < m.capacity)
    (hu : keysUniq m.slots) (hr : reachInv m.slots) {key : String}
    {r : Rcd V} :
    mapGetImpl m key = some r ↔ storedIn m.slots r ∧ r.key = key := by
  constructor
  · exact getImpl_some
  · rintro ⟨⟨p, hp⟩, rfl⟩
    exact getImpl_finds hcap hu hr hp

/-- Two well-formed tables storing the same records give identical lookup
results for every key. -/
theorem getImpl_congr {m m' : MapState V} (hcap : 0 < m.capacity)
    (hu : keysUniq m.slots) (hr : reachInv m.slots) (hcap' : 0 < m'.capacity)
    (hu' : keysUniq m'.slots) (hr' : reachInv m'.slots)
    (hstored : ∀ r, storedIn m.slots r ↔ storedIn m'.slots r) (key : String) :
    mapGetImpl m key = mapGetImpl m' key := by
  rcases hres : mapGetImpl m key with _ | r
  · rcases hres' : mapGetImpl m' key with _ | r'
    · rfl
    · obtain ⟨hst, hkey⟩ := getImpl_some hres'
      have : mapGetImpl m key = some r' := by
        rw [← hkey]
        obtain ⟨p, hp⟩ := (hstored r').mpr hst
        exact getImpl_finds hcap hu hr hp
      rw [this] at hres
      exact absurd hres (by simp)
  · obtain ⟨hst, hkey⟩ := getImpl_some hres
    rw [← hkey]
    obtain ⟨p, hp⟩ := (hstored r).mp hst
    exact (getImpl_finds hcap' hu' hr' hp).symm

end GetLemmas

/-! ## Updating a single slot -/

section SetLemmas

variable {V : Type u}

theorem storedIn_mono_set_some {l : Slots V} {q : Nat} {r r'' : Rcd V}
    (hq : l.getD q none = none) (hst : storedIn l r'') :
    storedIn (l.set q (some r)) r'' := by
  obtain ⟨p, hp⟩ := hst
  have hpq : p ≠ q := by
    intro h
    rw [h, hq] at hp
    exact absurd hp (by simp)
  exact ⟨p, by rw [slot_set_ne (Ne.symm hpq), hp]⟩

theorem storedIn_set_some {l : Slots V} {q : Nat} {r r'' : Rcd V}
    (hqlt : q < l.length) (hq : l.getD q none = none) :
    storedIn (l.set q (some r)) r'' ↔ r'' = r ∨ storedIn l r'' := by
  constructor
  · rintro ⟨p, hp⟩
    by_cases hpq : p = q
    · subst hpq
      rw [slot_set_self hqlt] at hp
      exact Or.inl (by simpa using hp.symm)
    · rw [slot_set_ne (Ne.symm hpq)] at hp
      exact Or.inr ⟨p, hp⟩
  · rintro (rfl | hst)
    · exact ⟨q, slot_set_self hqlt _⟩
    · exact storedIn_mono_set_some hq hst

theorem storedIn_set_none {l : Slots V} {q : Nat} {rq r : Rcd V}
    (hq : l.getD q none = some rq) (hu : keysUniq l) :
    storedIn (l.set q none) r ↔ storedIn l r ∧ r ≠ rq := by
  constructor
  · rintro ⟨p, hp⟩
    have hpq : p ≠ q := by
      intro h
      subst h
      rw [slot_set_self (slot_lt_of_some hq) _] at hp
      exact absurd hp (by simp)
    rw [slot_set_ne (Ne.symm hpq)] at hp
    refine ⟨⟨p, hp⟩, ?_⟩
    rintro rfl
    exact hpq (keysUniq_ext hu hp hq rfl)
  · rintro ⟨⟨p, hp⟩, hne⟩
    have hpq : p ≠ q := by
      rintro rfl
      rw [hp] at hq
      exact hne (by simpa using hq)
    exact ⟨p, by rw [slot_set_ne (Ne.symm hpq), hp]⟩

theorem isSome_set_some {l : Slots V} {q x : Nat} {r : Rcd V}
    (hqlt : q < l.length)
    (h : (l.getD x none).isSome = true ∨ x = q) :
    ((l.set q (some r)).getD x none).isSome = true := by
  by_cases hxq : x = q
  · subst hxq
    rw [slot_set_self hqlt]
    rfl
  · rw [slot_set_ne (fun h' => hxq h'.symm)]
    rcases h with h | h
    · exact h
    · exact absurd h hxq

theorem keysUniq_set_some {l : Slots V} {q : Nat} {r : Rcd V}
    (hu : keysUniq l) (hqlt : q < l.length) (hq : l.getD q none = none)
    (hfresh : ∀ r', storedIn l r' → r'.key ≠ r.key) :
    keysUniq (l.set q (some r)) := by
  apply keysUniq_of
  intro p1 p2 r1 r2 h1 h2 hk
  by_cases hp1 : p1 = q
  · rw [hp1, slot_set_self hqlt] at h1
    obtain rfl : r = r1 := by simpa using h1
    by_cases hp2 : p2 = q
    · rw [hp1, hp2]
    · rw [slot_set_ne (Ne.symm hp2)] at h2
      exact absurd hk.symm (hfresh r2 ⟨p2, h2⟩)
  · rw [slot_set_ne (Ne.symm hp1)] at h1
    by_cases hp2 : p2 = q
    · rw [hp2, slot_set_self hqlt] at h2
      obtain rfl : r = r2 := by simpa using h2
      exact absurd hk (hfresh r1 ⟨p1, h1⟩)
    · rw [slot_set_ne (Ne.symm hp2)] at h2
      exact keysUniq_ext hu h1 h2 hk

/-- Placing a record into the first empty slot of its probe run preserves
the reachability invariant. -/
theorem reachInv_set_some {l : Slots V} {q : Nat} {r : Rcd V}
    (hreach : reachInv l) (hqlt : q < l.length) (hq : l.getD q none = none)
    (hrun : ∀ t, t < cdist l.length (bucket r.key l.length) q →
      (l.getD ((bucket r.key l.length + t) % l.length) none).isSome = true) :
    reachInv (l.set q (some r)) := by
  apply reachInv_of
  intro p r' hp t ht
  rw [List.length_set] at ht ⊢
  by_cases hpq : p = q
  · subst hpq
    rw [slot_set_self hqlt] at hp
    obtain rfl : r = r' := by simpa using hp
    exact isSome_set_some hqlt (Or.inl (hrun t ht))
  · rw [slot_set_ne (Ne.symm hpq)] at hp
    exact isSome_set_some hqlt
      (Or.inl (reachInv_ext hreach hp t ht))

end SetLemmas

/-! ## Resize correctness -/

section ResizeLemmas

variable {V : Type u}

theorem numOccupied_eq_filterMap_length (l : Slots V) :
    numOccupied l = (l.filterMap id).length := by
  induction l with
  | nil => rfl
  | cons o t ih =>
    cases o with
    | none => simpa [numOccupied, List.countP_cons] using ih
    | some r => simpa [numOccupied, List.countP_cons] using ih

theorem storedIn_iff_mem_filterMap {l : Slots V} {r : Rcd V} :
    storedIn l r ↔ r ∈ l.filterMap id := by
  rw [List.mem_filterMap]
  constructor
  · rintro ⟨p, hp⟩
    refine ⟨some r, ?_, rfl⟩
    have hplt := slot_lt_of_some hp
    rw [List.getD_eq_getElem?_getD, List.getElem?_eq_getElem hplt] at hp
    have : l[p] = some r := by simpa using hp
    rw [← this]
    exact List.getElem_mem hplt
  · rintro ⟨o, hmem, ho⟩
    subst ho
    obtain ⟨p, hplt, hget⟩ := List.mem_iff_getElem.mp hmem
    refine ⟨p, ?_⟩
    rw [List.getD_eq_getElem?_getD, List.getElem?_eq_getElem hplt, hget]
    rfl

theorem filterMap_id_cons_none {t : Slots V} :
    (none :: t).filterMap id = t.filterMap id := rfl

theorem filterMap_id_cons_some {r : Rcd V} {t : Slots V} :
    ((some r) :: t).filterMap id = r :: t.filterMap id := rfl

theorem keysUniq_tail {o : Option (Rcd V)} {t : Slots V}
    (hu : keysUniq (o :: t)) : keysUniq t := by
  intro p hp q hq hs he
  have := hu (p + 1) (by simpa using Nat.succ_lt_succ hp) (q + 1)
    (by simpa using Nat.succ_lt_succ hq)
  simp only [keyAt, List.getD_cons_succ] at this
  have := this hs he
  omega

theorem keysUniq_nodup {l : Slots V} (hu : keysUniq l) :
    ((l.filterMap id).map Rcd.key).Nodup := by
  induction l with
  | nil => simp
  | cons o t ih =>
    cases o with
    | none =>
      rw [filterMap_id_cons_none]
      exact ih (keysUniq_tail hu)
    | some r =>
      rw [filterMap_id_cons_some, List.map_cons, List.nodup_cons]
      refine ⟨?_, ih (keysUniq_tail hu)⟩
      intro hmem
      obtain ⟨r', hr'mem, hr'key⟩ := List.mem_map.mp hmem
      obtain ⟨q, hq⟩ := storedIn_iff_mem_filterMap.mpr hr'mem
      have h0 : (some r :: t).getD 0 none = some r := rfl
      have hq1 : (some r :: t).getD (q + 1) none = some r' := by
        simpa using hq
      have := keysUniq_ext hu hq1 h0 hr'key
      omega

/-- The reinsertion loop of `MAP_RESIZE`: given enough room, it succeeds and
produces a well-formed slot array storing exactly the old records on top of
whatever the accumulator already stored. -/
theorem reinsertOld_spec :
    ∀ (olds : Slots V) (ns : Slots V) (cnt : Nat),
    cnt = numOccupied ns →
    (∀ r' r'', storedIn ns r' → r'' ∈ olds.filterMap id → r'.key ≠ r''.key) →
    (((olds.filterMap id).map Rcd.key).Nodup) →
    numOccupied ns + (olds.filterMap id).length ≤ ns.length →
    keysUniq ns → reachInv ns →
    ∃ ns' cnt', reinsertOld olds ns cnt = some (ns', cnt') ∧
      ns'.length = ns.length ∧
      cnt' = cnt + (olds.filterMap id).length ∧
      numOccupied ns' = cnt' ∧
      keysUniq ns' ∧ reachInv ns' ∧
      (∀ r, storedIn ns' r ↔ storedIn ns r ∨ r ∈ olds.filterMap id) := by
  intro olds
  induction olds with
  | nil =>
    intro ns cnt hcnt hdisj hnodup hroom hu hreach
    exact ⟨ns, cnt, rfl, rfl, by simp, by simp [hcnt], hu, hreach,
      fun r => by simp⟩
  | cons o olds ih =>
    intro ns cnt hcnt hdisj hnodup hroom hu hreach
    cases o with
    | none =>
      simp only [filterMap_id_cons_none] at hdisj hnodup hroom ⊢
      exact ih ns cnt hcnt hdisj hnodup hroom hu hreach
    | some r =>
      simp only [filterMap_id_cons_some, List.length_cons] at hdisj hnodup hroom ⊢
      have hlen0 : 0 < ns.length := by omega
      have hocc : numOccupied ns < ns.length := by omega
      have hh : bucket r.key ns.length < ns.length := Nat.mod_lt _ hlen0
      obtain ⟨k, hkc, hkrun, hkempty, hkfind⟩ :=
        findEmpty_success hh (Nat.le_refl _) (exists_empty_of_occ_lt hocc)
      set q := (bucket r.key ns.length + k) % ns.length with hqdef
      have hqlt : q < ns.length := probe_lt hlen0
      simp only [reinsertOld, hkfind]
      set ns2 := ns.set q (some r) with hns2
      have hlen2 : ns2.length = ns.length := by
        rw [hns2, List.length_set]
      have hrkey : ∀ r', storedIn ns r' → r'.key ≠ r.key := by
        intro r' hst
        exact hdisj r' r hst (by simp)
      have hcnt2 : cnt + 1 = numOccupied ns2 := by
        rw [hns2, numOccupied_set_some r hqlt hkempty, hcnt]
      have hrun2 : ∀ t, t < cdist ns.length (bucket r.key ns.length) q →
          (ns.getD ((bucket r.key ns.length + t) % ns.length) none).isSome = true := by
        intro t ht
        rw [hqdef, cdist_probe hh hkc] at ht
        exact hkrun t ht
      have hu2 : keysUniq ns2 := keysUniq_set_some hu hqlt hkempty hrkey
      have hreach2 : reachInv ns2 := reachInv_set_some hreach hqlt hkempty hrun2
      have hstored2 : ∀ r'', storedIn ns2 r'' ↔ r'' = r ∨ storedIn ns r'' :=
        fun r'' => storedIn_set_some hqlt hkempty
      obtain ⟨ns', cnt', hrec, hlen', hcnt', hocc', hu', hreach', hst'⟩ :=
        ih ns2 (cnt + 1) hcnt2
          (by
            intro r' r'' hstr' hmem''
            rcases (hstored2 r').mp hstr' with rfl | hstr'
            · have : r''.key ≠ r'.key := by
                have hhd := List.nodup_cons.mp hnodup |>.1
                intro he
                exact hhd (by
                  rw [← he]
                  exact List.mem_map.mpr ⟨r'', hmem'', rfl⟩)
              exact fun he => this he.symm
            · exact hdisj r' r'' hstr' (List.mem_cons_of_mem _ hmem''))
          (List.nodup_cons.mp hnodup).2
          (by rw [← hcnt2, hlen2]; omega)
          hu2 hreach2
      refine ⟨ns', cnt', hrec, by rw [hlen', hlen2], by omega, hocc', hu',
        hreach', ?_⟩
      intro r''
      rw [hst' r'', hstored2 r'']
      simp only [List.mem_cons]
      tauto

/-- `MAP_RESIZE` to any capacity at least the number of stored entries
succeeds and preserves metadata, count, and the stored records. -/
theorem mapResize_spec {m : MapState V} {newCap : Nat}
    (hu : keysUniq m.slots) (hcnt : m.count = numOccupied m.slots)
    (hroom : numOccupied m.slots ≤ newCap) :
    ∃ m', mapResize m newCap = some m' ∧
      m'.capacity = newCap ∧
      m'.count = m.count ∧
      m'.load_factor = m.load_factor ∧
      m'.growth_factor = m.growth_factor ∧
      m'.magic_number = MAP_MAGIC_NUMBER ∧
      numOccupied m'.slots = m'.count ∧
      keysUniq m'.slots ∧ reachInv m'.slots ∧
      (∀ r, storedIn m'.slots r ↔ storedIn m.slots r) := by
  have hrepl : numOccupied (List.replicate newCap (none : Option (Rcd V))) = 0 :=
    numOccupied_replicate newCap
  obtain ⟨ns', cnt', hrec, hlen', hcnt', hocc', hu', hreach', hst'⟩ :=
    reinsertOld_spec m.slots (List.replicate newCap none) 0 (by rw [hrepl])
      (by
        intro r' r'' hst hmem
        obtain ⟨p, hp⟩ := hst
        rw [slot_replicate] at hp
        exact absurd hp (by simp))
      (keysUniq_nodup hu)
      (by
        rw [hrepl, List.length_replicate, ← numOccupied_eq_filterMap_length]
        omega)
      (keysUniq_replicate newCap) (reachInv_replicate newCap)
  refine ⟨{ load_factor := m.load_factor
            growth_factor := m.growth_factor
            count := cnt'
            slots := ns'
            magic_number := MAP_MAGIC_NUMBER }, ?_, ?_, ?_, rfl, rfl, rfl, ?_,
    hu', hreach', ?_⟩
  · rw [mapResize, hrec]
    rfl
  · simp only [MapState.capacity]
    simpa using hlen'
  · simp only
    rw [hcnt', hcnt, numOccupied_eq_filterMap_length]
    omega
  · simp only
    exact hocc'
  · intro r
    simp only
    rw [hst' r]
    constructor
    · rintro (hst | hmem)
      · obtain ⟨p, hp⟩ := hst
        rw [slot_replicate] at hp
        exact absurd hp (by simp)
      · exact storedIn_iff_mem_filterMap.mpr hmem
    · intro hst
      exact Or.inr (storedIn_iff_mem_filterMap.mp hst)

end ResizeLemmas

/-! ## In-place update helpers -/

section UpdateLemmas

variable {V : Type u}

theorem isSome_set_of_isSome {l : Slots V} {p x : Nat} {r : Rcd V}
    (h : (l.getD x none).isSome = true) :
    ((l.set p (some r)).getD x none).isSome = true := by
  by_cases hxp : x = p
  · subst hxp
    obtain ⟨r', hr'⟩ := Option.isSome_iff_exists.mp h
    have hlt : x < l.length := slot_lt_of_some hr'
    rw [slot_set_self hlt]
    rfl
  · rw [slot_set_ne (fun h' => hxp h'.symm)]
    exact h

theorem numOccupied_set_over_some {l : Slots V} {p : Nat} {old r : Rcd V}
    (hp : l.getD p none = some old) :
    numOccupied (l.set p (some r)) = numOccupied l := by
  induction l generalizing p with
  | nil => simp [List.getD] at hp
  | cons o t ih =>
    cases p with
    | zero =>
      simp only [List.getD_cons_zero] at hp
      subst hp
      simp [numOccupied, List.set]
    | succ q =>
      simp only [List.getD_cons_succ] at hp
      have := ih hp
      simp only [numOccupied, List.set, List.countP_cons] at *
      omega

theorem keysUniq_set_same_key {l : Slots V} {p : Nat} {old r : Rcd V}
    (hu : keysUniq l) (hp : l.getD p none = some old)
    (hkey : r.key = old.key) : keysUniq (l.set p (some r)) := by
  have hplt : p < l.length := slot_lt_of_some hp
  apply keysUniq_of
  intro p1 p2 r1 r2 h1 h2 hk
  by_cases hp1 : p1 = p
  · rw [hp1, slot_set_self hplt] at h1
    obtain rfl : r = r1 := by simpa using h1
    by_cases hp2 : p2 = p
    · rw [hp1, hp2]
    · rw [slot_set_ne (Ne.symm hp2)] at h2
      rw [hp1]
      exact keysUniq_ext hu hp h2 (by rw [← hkey]; exact hk)
  · rw [slot_set_ne (Ne.symm hp1)] at h1
    by_cases hp2 : p2 = p
    · rw [hp2, slot_set_self hplt] at h2
      obtain rfl : r = r2 := by simpa using h2
      rw [hp2]
      exact keysUniq_ext hu h1 hp (by rw [hk, hkey])
    · rw [slot_set_ne (Ne.symm hp2)] at h2
      exact keysUniq_ext hu h1 h2 hk

theorem reachInv_set_same_key {l : Slots V} {p : Nat} {old r : Rcd V}
    (hreach : reachInv l) (hp : l.getD p none = some old)
    (hkey : r.key = old.key) : reachInv (l.set p (some r)) := by
  have hplt : p < l.length := slot_lt_of_some hp
  apply reachInv_of
  intro p1 r1 h1 t ht
  rw [List.length_set] at ht ⊢
  by_cases hp1 : p1 = p
  · rw [hp1, slot_set_self hplt] at h1
    obtain rfl : r = r1 := by simpa using h1
    rw [hkey] at ht ⊢
    rw [hp1] at ht
    exact isSome_set_of_isSome (reachInv_ext hreach hp t ht)
  · rw [slot_set_ne (Ne.symm hp1)] at h1
    exact isSome_set_of_isSome (reachInv_ext hreach h1 t ht)

theorem storedIn_set_over_some {l : Slots V} {p : Nat} {old r rr : Rcd V}
    (hu : keysUniq l) (hp : l.getD p none = some old) :
    storedIn (l.set p (some r)) rr ↔ rr = r ∨ (storedIn l rr ∧ rr ≠ old) := by
  have hplt : p < l.length := slot_lt_of_some hp
  constructor
  · rintro ⟨p1, h1⟩
    by_cases hp1 : p1 = p
    · rw [hp1, slot_set_self hplt] at h1
      exact Or.inl (by simpa using h1.symm)
    · rw [slot_set_ne (Ne.symm hp1)] at h1
      refine Or.inr ⟨⟨p1, h1⟩, ?_⟩
      rintro rfl
      exact hp1 (keysUniq_ext hu h1 hp rfl)
  · rintro (rfl | ⟨⟨p1, h1⟩, hne⟩)
    · exact ⟨p, slot_set_self hplt _⟩
    · have hp1 : p1 ≠ p := by
        rintro rfl
        rw [h1] at hp
        exact hne (by simpa using hp)
      exact ⟨p1, by rw [slot_set_ne (Ne.symm hp1), h1]⟩

end UpdateLemmas

/-! ## Growth arithmetic -/

section GrowthLemmas

variable {V : Type u}

/-- With a load factor at most 1, the growth threshold
`(size_t)(capacity * load_factor)` never exceeds the capacity. -/
theorem ratToSizeT_mul_le {cap : Nat} {f : Rat} (hf : f ≤ 1) :
    ratToSizeT ((cap : Rat) * f) ≤ cap := by
  unfold ratToSizeT
  have h1 : (cap : Rat) * f ≤ (cap : Rat) := by
    calc (cap : Rat) * f ≤ (cap : Rat) * 1 :=
          mul_le_mul_of_nonneg_left hf (by positivity)
      _ = (cap : Rat) := mul_one _
  have h2 : ¬ ((cap : Int) + 1 ≤ Rat.floor ((cap : Rat) * f)) := by
    intro hle
    have := Rat.le_floor.mp hle
    push_cast at this
    linarith
  omega

/-- Evaluation rule for the C cast: when `n ≤ q < n + 1`, `(size_t)q = n`. -/
theorem ratToSizeT_eq {q : Rat} {n : Nat} (h1 : (n : Rat) ≤ q)
    (h2 : q < (n : Rat) + 1) : ratToSizeT q = n := by
  unfold ratToSizeT
  have hle : (n : Int) ≤ Rat.floor q := Rat.le_floor.mpr (by push_cast; exact h1)
  have hlt : ¬ ((n : Int) + 1 ≤ Rat.floor q) := by
    intro hcon
    have := Rat.le_floor.mp hcon
    push_cast at this
    linarith
  omega

/-- The growth path's capacity choice strictly increases the capacity. -/
theorem growCapacity_gt {m : MapState V} : m.capacity < growCapacity m := by
  unfold growCapacity
  split <;> omega

/-- The growth path's capacity choice is
`max (capacity + 1) ((size_t)(capacity * growth_factor))`. -/
theorem growCapacity_eq_max {m : MapState V} :
    growCapacity m =
      max (m.capacity + 1) (ratToSizeT ((m.capacity : Rat) * m.growth_factor)) := by
  unfold growCapacity
  split <;> omega

end GrowthLemmas

/-! ## Insertion: termination and specification -/

section PutLemmas

variable {V : Type u}

/-- Inversion of a successful `map_put_free`: the result comes from a
possibly-grown base table `m1` and a successful placement probe on it. -/
theorem map_put_free_inv {tbl : Option (MapState V)} {item : Rcd V}
    {m' : MapState V} {fr : List (Rcd V)}
    (hres : map_put_free tbl item = some (m', fr)) :
    ∃ m1 ns fr0,
      ((growNeeded (putBase tbl) ∧
        mapResize (putBase tbl) (growCapacity (putBase tbl)) = some m1) ∨
       (¬ growNeeded (putBase tbl) ∧ m1 = putBase tbl)) ∧
      putProbe m1.slots item m1.capacity (bucket item.key m1.capacity) =
        some (ns, fr0) ∧
      m' = { m1 with
               slots := ns
               count := if fr0.isSome then m1.count else m1.count + 1 } ∧
      fr = fr0.toList := by
  by_cases hgrow : growNeeded (putBase tbl)
  · rw [map_put_free, if_pos hgrow] at hres
    rcases hm1 : mapResize (putBase tbl) (growCapacity (putBase tbl)) with _ | m1
    · rw [hm1] at hres
      exact absurd hres (by simp)
    · rw [hm1] at hres
      simp only [Option.bind_eq_bind, Option.some_bind] at hres
      rcases hp : putProbe m1.slots item m1.capacity (bucket item.key m1.capacity)
        with _ | p
      · rw [hp] at hres
        exact absurd hres (by simp)
      · rw [hp] at hres
        simp only [Option.some_bind, Option.pure_def, Option.some.injEq,
          Prod.mk.injEq] at hres
        obtain ⟨h1, h2⟩ := hres
        exact ⟨m1, p.1, p.2, Or.inl ⟨hgrow, rfl⟩, hp, h1.symm, h2.symm⟩
  · rw [map_put_free, if_neg hgrow] at hres
    simp only [Option.bind_eq_bind, Option.some_bind, pure] at hres
    rcases hp : putProbe (putBase tbl).slots item (putBase tbl).capacity
        (bucket item.key (putBase tbl).capacity) with _ | p
    · rw [hp] at hres
      exact absurd hres (by simp)
    · rw [hp] at hres
      simp only [Option.some_bind, Option.pure_def, Option.some.injEq,
        Prod.mk.injEq] at hres
      obtain ⟨h1, h2⟩ := hres
      exact ⟨putBase tbl, p.1, p.2, Or.inr ⟨hgrow, rfl⟩, hp, h1.symm, h2.symm⟩

/-- `map_put_free` on a well-formed table always terminates (the growth
check keeps the table from ever being full, so the unguarded placement
probe finds a matching or empty slot within `capacity` steps). -/
theorem put_total {m : MapState V} (hcap : 0 < m.capacity)
    (hcnt : m.count = numOccupied m.slots) (hu : keysUniq m.slots)
    (hocc : numOccupied m.slots < m.capacity) (item : Rcd V) :
    (map_put_free (some m) item).isSome = true := by
  have hbase : putBase (some m) = m := rfl
  by_cases hgrow : growNeeded m
  · obtain ⟨m1, hres1, hcap1, hcnt1, _, _, _, hocc1, hu1, hreach1, hst1⟩ :=
      @mapResize_spec _ m (growCapacity m) hu hcnt
        (by have := growCapacity_gt (m := m); omega)
    rw [map_put_free]
    simp only [hbase, if_pos hgrow, hres1, Option.bind_eq_bind, Option.some_bind]
    have hcappos : 0 < m1.capacity := by
      have := growCapacity_gt (m := m)
      omega
    have hsucc : (putProbe m1.slots item m1.capacity
        (bucket item.key m1.capacity)).isSome = true := by
      refine putProbe_success (Nat.mod_lt _ hcappos) (Nat.le_refl _) ?_
      refine exists_empty_of_occ_lt ?_
      have h1 : numOccupied m1.slots = m.count := by rw [hocc1, hcnt1]
      have h2 : m.count < m.capacity := by omega
      have h4 : m1.slots.length = growCapacity m := hcap1
      have h5 : m.capacity < growCapacity m := growCapacity_gt
      omega
    obtain ⟨pp, hpp⟩ := Option.isSome_iff_exists.mp hsucc
    rw [hpp]
    rfl
  · rw [map_put_free]
    simp only [hbase, if_neg hgrow, Option.bind_eq_bind, Option.pure_def,
      Option.some_bind]
    have hsucc : (putProbe m.slots item m.capacity
        (bucket item.key m.capacity)).isSome = true := by
      refine putProbe_success (Nat.mod_lt _ hcap) (Nat.le_refl _) ?_
      exact exists_empty_of_occ_lt hocc
    obtain ⟨pp, hpp⟩ := Option.isSome_iff_exists.mp hsucc
    rw [hpp]
    rfl

/-- Round trip, with no well-formedness assumption: whenever `map_put_free`
returns at all, looking up the inserted key in the result yields exactly the
just-inserted record. -/
theorem put_get_roundtrip {tbl : Option (MapState V)} {item : Rcd V}
    {m' : MapState V} {fr : List (Rcd V)}
    (hres : map_put_free tbl item = some (m', fr)) :
    mapGetImpl m' item.key = some item := by
  obtain ⟨m1, ns, fr0, hbranch, hprobe, hm', hfr⟩ := map_put_free_inv hres
  have hcap1 : 0 < m1.slots.length := by
    by_contra hz
    have h0 : m1.slots.length = 0 := by omega
    have : m1.capacity = 0 := h0
    rw [this] at hprobe
    exact absurd hprobe (by simp [putProbe])
  have hh : bucket item.key m1.capacity < m1.slots.length :=
    Nat.mod_lt _ hcap1
  obtain ⟨k, hkf, hrun, hns, hcase⟩ := putProbe_some hh hprobe
  have hklt : k < m1.slots.length := hkf
  set h0 := bucket item.key m1.capacity with hh0def
  set p := (h0 + k) % m1.slots.length with hpdef
  have hplt : p < m1.slots.length := probe_lt hcap1
  have hnslen : ns.length = m1.slots.length := by
    rw [hns, List.length_set]
  have hbeq : bucket item.key ns.length = h0 := by
    rw [hnslen]
    rfl
  rw [hm']
  show getProbe ns item.key ns.length (bucket item.key ns.length) = some item
  have hit2 : ns.getD ((bucket item.key ns.length + k) % ns.length) none =
      some item := by
    rw [hbeq, hnslen, ← hpdef, hns]
    exact slot_set_self hplt _
  have hrun2 : ∀ t, t < k →
      ∃ r', ns.getD ((bucket item.key ns.length + t) % ns.length) none = some r' ∧
        r'.key ≠ item.key := by
    intro t ht
    obtain ⟨r', hr', hner⟩ := hrun t ht
    refine ⟨r', ?_, hner⟩
    rw [hbeq, hnslen, hns]
    have hne : p ≠ (h0 + t) % m1.slots.length := by
      rw [hpdef]
      intro he
      have := @probe_inj m1.slots.length _ _ _ hh hklt (by omega) he
      omega
    rw [slot_set_ne hne]
    exact hr'
  exact getProbe_finds (by rw [hnslen]; exact Nat.mod_lt _ hcap1)
    (by rw [hnslen]; exact hklt) hrun2 hit2 rfl

/-- Full specification of a successful `map_put_free` on a well-formed
table: the result is well-formed, metadata is preserved, capacity never
shrinks, the stored records are the old ones (minus any record with the
item's key) plus the item, and the cleanup list together with the count
distinguishes the update and insert cases. -/
theorem put_spec {m : MapState V} {item : Rcd V} {m' : MapState V}
    {fr : List (Rcd V)} (hcap : 0 < m.capacity)
    (hcnt : m.count = numOccupied m.slots) (hu : keysUniq m.slots)
    (hreach : reachInv m.slots) (hocc : numOccupied m.slots < m.capacity)
    (hmagic : m.magic_number = MAP_MAGIC_NUMBER)
    (hres : map_put_free (some m) item = some (m', fr)) :
    0 < m'.capacity ∧
    m'.count = numOccupied m'.slots ∧
    keysUniq m'.slots ∧ reachInv m'.slots ∧
    m'.magic_number = MAP_MAGIC_NUMBER ∧
    m'.load_factor = m.load_factor ∧
    m'.growth_factor = m.growth_factor ∧
    m.capacity ≤ m'.capacity ∧
    (m.load_factor ≤ 1 → numOccupied m'.slots < m'.capacity) ∧
    (∀ rr, storedIn m'.slots rr ↔
      rr = item ∨ (storedIn m.slots rr ∧ rr.key ≠ item.key)) ∧
    ((∃ old, storedIn m.slots old ∧ old.key = item.key ∧ fr = [old] ∧
        m'.count = m.count) ∨
     ((∀ rr, storedIn m.slots rr → rr.key ≠ item.key) ∧ fr = [] ∧
        m'.count = m.count + 1)) := by
  obtain ⟨m1, ns, fr0, hbranch, hprobe, hm', hfr⟩ := map_put_free_inv hres
  rw [show putBase (some m) = m from rfl] at hbranch
  -- package the properties of the (possibly grown) intermediate table m1
  have hpkg : m1.load_factor = m.load_factor ∧
      m1.growth_factor = m.growth_factor ∧
      m1.count = m.count ∧ m1.count = numOccupied m1.slots ∧
      keysUniq m1.slots ∧ reachInv m1.slots ∧
      m1.magic_number = MAP_MAGIC_NUMBER ∧
      m.capacity ≤ m1.capacity ∧ numOccupied m1.slots < m1.capacity ∧
      (∀ r, storedIn m1.slots r ↔ storedIn m.slots r) := by
    rcases hbranch with ⟨hgrow, hres1⟩ | ⟨hgrow, rfl⟩
    · obtain ⟨m2, hres2, hcap2, hcnt2, hlf2, hgf2, hmg2, hocc2, hu2, hreach2,
        hst2⟩ := @mapResize_spec _ m (growCapacity m) hu hcnt
          (by have := growCapacity_gt (m := m); omega)
      rw [hres1] at hres2
      obtain rfl : m1 = m2 := by simpa using hres2
      have hglen : m1.capacity = growCapacity m := hcap2
      have hgt : m.capacity < growCapacity m := growCapacity_gt
      refine ⟨hlf2, hgf2, hcnt2, by rw [hocc2], hu2, hreach2, hmg2,
        by omega, ?_, hst2⟩
      rw [hocc2, hcnt2, hcnt, hglen]
      have : numOccupied m.slots < m.capacity := hocc
      omega
    · exact ⟨rfl, rfl, rfl, hcnt.symm ▸ hcnt, hu, hreach, hmagic,
        Nat.le_refl _, hocc, fun r => Iff.rfl⟩
  obtain ⟨hlf1, hgf1, hcnt1, hocc1, hu1, hreach1, hmg1, hcaple, hoccl1, hst1⟩ :=
    hpkg
  have hcap1 : 0 < m1.slots.length := by
    have : 0 < m1.capacity := by omega
    exact this
  have hlcap : m1.slots.length = m1.capacity := rfl
  have hh : bucket item.key m1.capacity < m1.slots.length :=
    Nat.mod_lt _ hcap1
  obtain ⟨k, hkf, hrun, hns, hcase⟩ := putProbe_some hh hprobe
  have hklt : k < m1.slots.length := hkf
  set h0 := bucket item.key m1.capacity with hh0def
  set p := (h0 + k) % m1.slots.length with hpdef
  have hplt : p < m1.slots.length := probe_lt hcap1
  have hnslen : ns.length = m1.slots.length := by rw [hns, List.length_set]
  have hm'slots : m'.slots = ns := by rw [hm']
  have hm'cap : m'.capacity = m1.slots.length := by
    rw [MapState.capacity, hm'slots, hnslen]
  have hm'lf : m'.load_factor = m.load_factor := by rw [hm']; exact hlf1
  have hm'gf : m'.growth_factor = m.growth_factor := by rw [hm']; exact hgf1
  have hm'mg : m'.magic_number = MAP_MAGIC_NUMBER := by rw [hm']; exact hmg1
  rcases hcase with ⟨hfr0, hpempty⟩ | ⟨old, hfr0, hpold, holdkey⟩
  · -- insertion into an empty slot
    subst hfr0
    have hm'cnt : m'.count = m1.count + 1 := by rw [hm']; rfl
    have hfresh : ∀ rr, storedIn m1.slots rr → rr.key ≠ item.key := by
      rintro rr ⟨q, hq⟩ hkeq
      have hqlt : q < m1.slots.length := slot_lt_of_some hq
      have hbq : bucket rr.key m1.slots.length = h0 := by
        rw [hkeq, hh0def]
        rfl
      set dq := cdist m1.slots.length h0 q with hdq
      have hqpos : (h0 + dq) % m1.slots.length = q := by
        rw [hdq]
        exact probe_cdist hh hqlt
      have hdqlt : dq < m1.slots.length := cdist_lt hcap1 hh hqlt
      rcases Nat.lt_trichotomy dq k with hlt | heq | hgt
      · obtain ⟨r', hr', hner⟩ := hrun dq hlt
        rw [hqpos] at hr'
        rw [hq] at hr'
        obtain rfl : rr = r' := by simpa using hr'
        exact hner hkeq
      · rw [heq] at hqpos
        rw [← hpdef] at hqpos
        rw [hqpos] at hpempty
        rw [hq] at hpempty
        exact absurd hpempty (by simp)
      · have hrk := reachInv_ext hreach1 hq
        rw [hbq] at hrk
        have := hrk k (by rw [hdq] at hgt; exact hgt)
        rw [← hpdef] at this
        rw [hpempty] at this
        exact absurd this (by simp)
    have hoccns : numOccupied ns = numOccupied m1.slots + 1 := by
      rw [hns]
      exact numOccupied_set_some item hplt hpempty
    have hstns : ∀ rr, storedIn ns rr ↔ rr = item ∨ storedIn m1.slots rr := by
      intro rr
      rw [hns]
      exact storedIn_set_some hplt hpempty
    have huns : keysUniq ns := by
      rw [hns]
      exact keysUniq_set_some hu1 hplt hpempty hfresh
    have hreachns : reachInv ns := by
      rw [hns]
      refine reachInv_set_some hreach1 hplt hpempty ?_
      intro t ht
      have hcd : cdist m1.slots.length (bucket item.key m1.slots.length) p = k := by
        rw [hpdef]
        have : bucket item.key m1.slots.length = h0 := by rw [hh0def]; rfl
        rw [this]
        exact cdist_probe hh hklt
      rw [hcd] at ht
      obtain ⟨r', hr', _⟩ := hrun t ht
      have : bucket item.key m1.slots.length = h0 := by rw [hh0def]; rfl
      rw [this, hr']
      rfl
    refine ⟨by omega, ?_, by rw [hm'slots]; exact huns,
      by rw [hm'slots]; exact hreachns, hm'mg, hm'lf, hm'gf, by omega, ?_, ?_, ?_⟩
    · rw [hm'cnt, hm'slots, hoccns, hocc1]
    · intro hlf
      rw [hm'slots, hm'cap, hoccns]
      rcases hbranch with ⟨hgrow, hres1⟩ | ⟨hgrow, heq⟩
      · have : m.capacity < growCapacity m := growCapacity_gt
        have hglen : m1.capacity = growCapacity m := by
          obtain ⟨m2, hres2, hcap2, _, _, _, _, _, _, _⟩ :=
            @mapResize_spec _ m (growCapacity m) hu hcnt
              (by have := growCapacity_gt (m := m); omega)
          rw [hres1] at hres2
          obtain rfl : m1 = m2 := by simpa using hres2
          exact hcap2
        have h6 : m1.slots.length = growCapacity m := hglen
        have h7 : numOccupied m1.slots = m.count := by omega
        have h8 : numOccupied m.slots < m.capacity := hocc
        omega
      · have hng : m.count + 1 < ratToSizeT ((m.capacity : Rat) * m.load_factor) := by
          have := hgrow
          unfold growNeeded at this
          omega
        have hle : ratToSizeT ((m.capacity : Rat) * m.load_factor) ≤ m.capacity :=
          ratToSizeT_mul_le hlf
        have h6 : m1.slots.length = m.capacity := by rw [heq]; rfl
        have h7 : numOccupied m1.slots = m.count := by omega
        omega
    · intro rr
      rw [hm'slots, hstns rr]
      constructor
      · rintro (rfl | hst)
        · exact Or.inl rfl
        · exact Or.inr ⟨(hst1 rr).mp hst, hfresh rr hst⟩
      · rintro (rfl | ⟨hst, hne⟩)
        · exact Or.inl rfl
        · exact Or.inr ((hst1 rr).mpr hst)
    · refine Or.inr ⟨?_, by rw [hfr]; rfl, by rw [hm'cnt, hcnt1]⟩
      intro rr hst
      exact hfresh rr ((hst1 rr).mpr hst)
  · -- in-place update of an existing key
    subst hfr0
    have hm'cnt : m'.count = m1.count := by rw [hm']; rfl
    have hoccns : numOccupied ns = numOccupied m1.slots := by
      rw [hns]
      exact numOccupied_set_over_some hpold
    have hstns : ∀ rr, storedIn ns rr ↔
        rr = item ∨ (storedIn m1.slots rr ∧ rr ≠ old) := by
      intro rr
      rw [hns]
      exact storedIn_set_over_some hu1 hpold
    have huns : keysUniq ns := by
      rw [hns]
      exact keysUniq_set_same_key hu1 hpold holdkey.symm
    have hreachns : reachInv ns := by
      rw [hns]
      exact reachInv_set_same_key hreach1 hpold holdkey.symm
    have hkey_ne_iff : ∀ rr, storedIn m1.slots rr →
        (rr ≠ old ↔ rr.key ≠ item.key) := by
      rintro rr ⟨q, hq⟩
      constructor
      · intro hne hkeq
        have hqp := keysUniq_ext hu1 hq hpold (by rw [hkeq, holdkey])
        rw [hqp] at hq
        rw [hpold] at hq
        have hor : old = rr := by simpa using hq
        exact hne hor.symm
      · intro hkne
        rintro rfl
        exact hkne holdkey
    refine ⟨by omega, ?_, by rw [hm'slots]; exact huns,
      by rw [hm'slots]; exact hreachns, hm'mg, hm'lf, hm'gf, by omega, ?_, ?_, ?_⟩
    · rw [hm'cnt, hm'slots, hoccns, hocc1]
    · intro hlf
      rw [hm'slots, hm'cap, hoccns]
      omega
    · intro rr
      rw [hm'slots, hstns rr]
      constructor
      · rintro (rfl | ⟨hst, hne⟩)
        · exact Or.inl rfl
        · exact Or.inr ⟨(hst1 rr).mp hst, (hkey_ne_iff rr hst).mp hne⟩
      · rintro (rfl | ⟨hst, hne⟩)
        · exact Or.inl rfl
        · have hst' := (hst1 rr).mpr hst
          exact Or.inr ⟨hst', (hkey_ne_iff rr hst').mpr hne⟩
    · refine Or.inl ⟨old, (hst1 old).mp ⟨p, hpold⟩, holdkey, by rw [hfr]; rfl,
        by rw [hm'cnt, hcnt1]⟩

/-- Inserting into a null handle is the same computation as inserting into a
fresh default-capacity map (the null branch of `map_put_free` allocates
exactly that). -/
theorem map_put_free_none (item : Rcd V) :
    map_put_free (none : Option (MapState V)) item =
      map_put_free (some (freshMap V MAP_INIT_CAPACITY)) item := rfl

end PutLemmas

/-! ## Minimum-capacity requests -/

section MinCapLemmas

variable {V : Type u}

/-- On a null handle, `map_set_min_capacity` allocates a fresh empty map of
capacity `max(MAP_INIT_CAPACITY, min_cap)`. -/
theorem set_min_capacity_none (minCap : Nat) :
    map_set_min_capacity (none : Option (MapState V)) minCap =
      some (freshMap V (max MAP_INIT_CAPACITY minCap)) := by
  rw [map_set_min_capacity]
  congr 2
  by_cases h : minCap > MAP_INIT_CAPACITY
  · rw [if_pos h, Nat.max_eq_right (by omega)]
  · rw [if_neg h, Nat.max_eq_left (by omega)]

/-- On an existing well-formed table, `map_set_min_capacity` succeeds, never
shrinks, reaches at least the requested capacity, leaves the table untouched
when it is already big enough, and preserves count, metadata and the stored
records. -/
theorem set_min_capacity_spec {m : MapState V} (minCap : Nat)
    (hu : keysUniq m.slots) (hreach : reachInv m.slots)
    (hcnt : m.count = numOccupied m.slots) :
    ∃ m', map_set_min_capacity (some m) minCap = some m' ∧
      m.capacity ≤ m'.capacity ∧ minCap ≤ m'.capacity ∧
      (minCap ≤ m.capacity → m' = m) ∧
      m'.count = m.count ∧
      m'.load_factor = m.load_factor ∧
      m'.growth_factor = m.growth_factor ∧
      m'.count = numOccupied m'.slots ∧
      keysUniq m'.slots ∧ reachInv m'.slots ∧
      (m.magic_number = MAP_MAGIC_NUMBER →
        m'.magic_number = MAP_MAGIC_NUMBER) ∧
      (∀ r, storedIn m'.slots r ↔ storedIn m.slots r) := by
  by_cases hlt : m.capacity < minCap
  · obtain ⟨m2, hres2, hcap2, hcnt2, hlf2, hgf2, hmg2, hocc2, hu2, hreach2,
      hst2⟩ := @mapResize_spec _ m minCap hu hcnt
        (by
          have h1 := numOccupied_le (l := m.slots)
          have h2 : m.slots.length = m.capacity := rfl
          omega)
    refine ⟨m2, ?_, by omega, by omega, fun h => absurd h (by omega), hcnt2, hlf2, hgf2,
      by rw [hocc2], hu2, hreach2, fun _ => hmg2, hst2⟩
    rw [map_set_min_capacity, if_pos hlt, hres2]
  · refine ⟨m, ?_, Nat.le_refl _, by omega, fun _ => rfl, rfl, rfl, rfl, hcnt,
      hu, hreach, fun h => h, fun r => Iff.rfl⟩
    rw [map_set_min_capacity, if_neg hlt]

end MinCapLemmas

/-! ## Unconditional count and header soundness

The count bookkeeping of every operation is exact (count = number of
occupied slots) with no well-formedness assumptions beyond the same fact
about the input, because every placement goes into a slot that is checked
to be empty and every removal clears a slot that was checked to be
occupied. -/

section SoundLemmas

variable {V : Type u}

theorem numOccupied_pos_of_some {l : Slots V} {p : Nat} {r : Rcd V}
    (h : l.getD p none = some r) : 1 ≤ numOccupied l := by
  have := numOccupied_set_none h
  omega

theorem reinsertOld_sound :
    ∀ (olds ns : Slots V) (cnt : Nat) (ns' : Slots V) (cnt' : Nat),
    reinsertOld olds ns cnt = some (ns', cnt') →
    numOccupied ns' + cnt = numOccupied ns + cnt' ∧ ns'.length = ns.length := by
  intro olds
  induction olds with
  | nil =>
    intro ns cnt ns' cnt' hres
    obtain ⟨rfl, rfl⟩ : ns = ns' ∧ cnt = cnt' := by
      simpa [reinsertOld] using hres
    exact ⟨rfl, rfl⟩
  | cons o olds ih =>
    intro ns cnt ns' cnt' hres
    cases o with
    | none => exact ih ns cnt ns' cnt' hres
    | some r =>
      rcases hfind : findEmpty ns ns.length (bucket r.key ns.length) with _ | q
      · rw [reinsertOld, hfind] at hres
        exact absurd hres (by simp)
      · rw [reinsertOld, hfind] at hres
        have hlen : 0 < ns.length := by
          by_contra hz
          have h0 : ns.length = 0 := by omega
          rw [h0] at hfind
          exact absurd hfind (by simp [findEmpty])
        obtain ⟨hqe, k, hkf, hqeq, _⟩ :=
          findEmpty_some (Nat.mod_lt _ hlen) hfind
        have hqlt : q < ns.length := by
          rw [hqeq]
          exact probe_lt hlen
        have hocc2 := numOccupied_set_some r hqlt hqe
        obtain ⟨ih1, ih2⟩ := ih _ _ _ _ hres
        constructor
        · rw [hocc2] at ih1
          omega
        · rw [ih2, List.length_set]

theorem mapResize_sound {m : MapState V} {c : Nat} {m' : MapState V}
    (hres : mapResize m c = some m') :
    m'.count = numOccupied m'.slots ∧
    m'.magic_number = MAP_MAGIC_NUMBER ∧
    m'.capacity = c ∧
    m'.load_factor = m.load_factor ∧
    m'.growth_factor = m.growth_factor := by
  rcases hrec : reinsertOld m.slots
      (List.replicate c (none : Option (Rcd V))) 0 with _ | p
  · rw [mapResize, hrec] at hres
    exact absurd hres (by simp)
  · rw [mapResize, hrec] at hres
    obtain ⟨ih1, ih2⟩ := reinsertOld_sound _ _ _ _ _ hrec
    rw [numOccupied_replicate] at ih1
    obtain rfl :
        ({ load_factor := m.load_factor
           growth_factor := m.growth_factor
           count := p.2
           slots := p.1
           magic_number := MAP_MAGIC_NUMBER } : MapState V) = m' := by
      simpa using hres
    refine ⟨by simpa using ih1.symm, rfl, ?_, rfl, rfl⟩
    show p.1.length = c
    simpa using ih2

theorem put_inv9 {tbl : Option (MapState V)} {item : Rcd V}
    {m' : MapState V} {fr : List (Rcd V)}
    (hb : (putBase tbl).count = numOccupied (putBase tbl).slots)
    (hbm : (putBase tbl).magic_number = MAP_MAGIC_NUMBER)
    (hres : map_put_free tbl item = some (m', fr)) :
    m'.count = numOccupied m'.slots ∧
    m'.magic_number = MAP_MAGIC_NUMBER := by
  obtain ⟨m1, ns, fr0, hbranch, hprobe, hm', hfr⟩ := map_put_free_inv hres
  have h1 : m1.count = numOccupied m1.slots ∧
      m1.magic_number = MAP_MAGIC_NUMBER := by
    rcases hbranch with ⟨_, hres1⟩ | ⟨_, rfl⟩
    · obtain ⟨ha, hbq, _, _, _⟩ := mapResize_sound hres1
      exact ⟨ha, hbq⟩
    · exact ⟨hb, hbm⟩
  have hcap1 : 0 < m1.slots.length := by
    by_contra hz
    have h0 : m1.slots.length = 0 := by omega
    have hc0 : m1.capacity = 0 := h0
    rw [hc0] at hprobe
    exact absurd hprobe (by simp [putProbe])
  have hh : bucket item.key m1.capacity < m1.slots.length :=
    Nat.mod_lt _ hcap1
  obtain ⟨k, hkf, hrun, hns, hcase⟩ := putProbe_some hh hprobe
  have hplt : (bucket item.key m1.capacity + k) % m1.slots.length <
      m1.slots.length := probe_lt hcap1
  rcases hcase with ⟨hfr0, hpempty⟩ | ⟨old, hfr0, hpold, _⟩
  · subst hfr0
    rw [hm']
    refine ⟨?_, h1.2⟩
    show (if (none : Option (Rcd V)).isSome then m1.count else m1.count + 1) =
      numOccupied ns
    rw [hns, numOccupied_set_some item hplt hpempty]
    simp [h1.1]
  · subst hfr0
    rw [hm']
    refine ⟨?_, h1.2⟩
    show (if (some old).isSome then m1.count else m1.count + 1) =
      numOccupied ns
    rw [hns, numOccupied_set_over_some hpold]
    simp [h1.1]

theorem deleteWalk_occ :
    ∀ (fuel : Nat) (slots : Slots V) (j : Nat) (s' : Slots V),
    deleteWalk slots fuel j = some s' →
    numOccupied s' = numOccupied slots ∧ s'.length = slots.length := by
  intro fuel
  induction fuel with
  | zero =>
    intro slots j s' hres
    exact absurd hres (by simp [deleteWalk])
  | succ f ih =>
    intro slots j s' hres
    rcases hslot : slots.getD j none with _ | temp
    · simp only [deleteWalk, hslot] at hres
      obtain rfl : slots = s' := by simpa using hres
      exact ⟨rfl, rfl⟩
    · simp only [deleteWalk, hslot] at hres
      have hjlt : j < slots.length := slot_lt_of_some hslot
      have hlen : 0 < (slots.set j none).length := by
        rw [List.length_set]
        omega
      rcases hfind : findEmpty (slots.set j none) (slots.set j none).length
          (bucket temp.key (slots.set j none).length) with _ | q
      · rw [hfind] at hres
        exact absurd hres (by simp)
      · rw [hfind] at hres
        obtain ⟨hqe, k, hkf, hqeq, _⟩ :=
          findEmpty_some (Nat.mod_lt _ hlen) hfind
        have hqlt : q < (slots.set j none).length := by
          rw [hqeq]
          exact probe_lt hlen
        obtain ⟨ih1, ih2⟩ := ih _ _ _ hres
        have e1 := numOccupied_set_none hslot
        have e2 := numOccupied_set_some temp hqlt hqe
        constructor
        · rw [ih1, e2]
          omega
        · rw [ih2, List.length_set, List.length_set]

theorem delete_inv9 {m : MapState V} {key : String}
    {t' : Option (MapState V)} {fr : List (Rcd V)}
    (h1 : m.count = numOccupied m.slots)
    (h2 : m.magic_number = MAP_MAGIC_NUMBER)
    (hres : map_delete_free (some m) key = some (t', fr)) :
    ∀ m2, t' = some m2 → m2.count = numOccupied m2.slots ∧
      m2.magic_number = MAP_MAGIC_NUMBER := by
  intro m2 heq
  rcases hfd : findDelete m.slots key m.capacity (bucket key m.capacity)
      with _ | res
  · rw [map_delete_free, hfd] at hres
    exact absurd hres (by simp)
  · rw [map_delete_free, hfd] at hres
    rcases res with _ | ⟨idx, victim⟩
    · obtain ⟨rfl, rfl⟩ : some m = t' ∧ [] = fr := by simpa using hres
      obtain rfl : m = m2 := by simpa using heq
      exact ⟨h1, h2⟩
    · obtain ⟨hvic, _⟩ := findDelete_found_some hfd
      rcases hwalk : deleteWalk (m.slots.set idx none)
          (deleteWalkFuel m.capacity) ((idx + 1) % m.capacity) with _ | s2
      · simp only [map_delete_impl_idx, hwalk] at hres
        exact absurd hres (by simp)
      · simp only [map_delete_impl_idx, hwalk] at hres
        obtain ⟨hm2, _⟩ : some { m with slots := s2, count := m.count - 1 } = t' ∧
            [victim] = fr := by simpa using hres
        rw [← hm2] at heq
        obtain rfl : { m with slots := s2, count := m.count - 1 } = m2 := by
          simpa using heq
        obtain ⟨hocc, _⟩ := deleteWalk_occ _ _ _ _ hwalk
        have e1 := numOccupied_set_none hvic
        have e2 := numOccupied_pos_of_some hvic
        refine ⟨?_, h2⟩
        show m.count - 1 = numOccupied s2
        rw [hocc]
        omega

end SoundLemmas

/-! ## Engine-reachable maps -/

/-- The map handles reachable from the absent handle by engine operations:
insertions, deletions, minimum-capacity requests, duplication, the factor
setters, and resizes. -/
inductive Reaches {V : Type u} : Option (MapState V) → Prop where
  | start : Reaches none
  | put {tbl : Option (MapState V)} {item : Rcd V} {m' : MapState V}
      {fr : List (Rcd V)} :
      Reaches tbl → map_put_free tbl item = some (m', fr) → Reaches (some m')
  | del {tbl : Option (MapState V)} {key : String} {t' : Option (MapState V)}
      {fr : List (Rcd V)} :
      Reaches tbl → map_delete_free tbl key = some (t', fr) → Reaches t'
  | minCap {tbl : Option (MapState V)} {c : Nat} {m' : MapState V} :
      Reaches tbl → map_set_min_capacity tbl c = some m' → Reaches (some m')
  | dup {tbl : Option (MapState V)} {m' : MapState V} :
      Reaches tbl → map_dup tbl = some m' → Reaches (some m')
  | setLF {tbl : Option (MapState V)} {f : Rat} {m' : MapState V} :
      Reaches tbl → map_set_load_factor tbl f = some m' → Reaches (some m')
  | setGF {tbl : Option (MapState V)} {f : Rat} {m' : MapState V} :
      Reaches tbl → map_set_growth_factor tbl f = some m' → Reaches (some m')
  | resize {m : MapState V} {c : Nat} {m' : MapState V} :
      Reaches (some m) → mapResize m c = some m' → Reaches (some m')

/-- Every reachable map keeps its count equal to the number of occupied
slots and its magic number set. -/
theorem reaches_inv9 {V : Type u} {t : Option (MapState V)} (h : Reaches t) :
    ∀ m, t = some m → m.count = numOccupied m.slots ∧
      m.magic_number = MAP_MAGIC_NUMBER := by
  induction h with
  | start => intro m heq; exact absurd heq (by simp)
  | @put tbl item m' fr hr hput ih =>
    intro m heq
    obtain rfl : m' = m := by simpa using heq
    refine put_inv9 ?_ ?_ hput
    · cases tbl with
      | none =>
        show (0 : Nat) = numOccupied (List.replicate MAP_INIT_CAPACITY none)
        rw [numOccupied_replicate]
      | some mb => exact (ih mb rfl).1
    · cases tbl with
      | none => rfl
      | some mb => exact (ih mb rfl).2
  | @del tbl key t' fr hr hdel ih =>
    intro m heq
    cases tbl with
    | none =>
      rw [map_delete_free] at hdel
      obtain ⟨rfl, _⟩ : (none : Option (MapState V)) = t' ∧ [] = fr := by
        simpa using hdel
      exact absurd heq (by simp)
    | some mb =>
      obtain ⟨hb1, hb2⟩ := ih mb rfl
      exact delete_inv9 hb1 hb2 hdel m heq
  | @minCap tbl c m' hr hmin ih =>
    intro m heq
    have hgoal : m'.count = numOccupied m'.slots ∧
        m'.magic_number = MAP_MAGIC_NUMBER := by
      cases tbl with
      | none =>
        rw [set_min_capacity_none] at hmin
        obtain rfl : freshMap V (max MAP_INIT_CAPACITY c) = m' := by
          simpa using hmin
        exact ⟨by
          show (0 : Nat) = numOccupied (List.replicate _ none)
          rw [numOccupied_replicate], rfl⟩
      | some mb =>
        obtain ⟨hb1, hb2⟩ := ih mb rfl
        rw [map_set_min_capacity] at hmin
        by_cases hlt : mb.capacity < c
        · rw [if_pos hlt] at hmin
          obtain ⟨ha, hbq, _, _, _⟩ := mapResize_sound hmin
          exact ⟨ha, hbq⟩
        · rw [if_neg hlt] at hmin
          obtain rfl : mb = m' := by simpa using hmin
          exact ⟨hb1, hb2⟩
    obtain rfl : m' = m := by simpa using heq
    exact hgoal
  | @dup tbl m' hr hdup ih =>
    intro m heq
    have hgoal : m'.count = numOccupied m'.slots ∧
        m'.magic_number = MAP_MAGIC_NUMBER := by
      cases tbl with
      | none => exact absurd hdup (by simp [map_dup])
      | some mb =>
        obtain ⟨hb1, hb2⟩ := ih mb rfl
        rw [map_dup] at hdup
        obtain rfl : { mb with magic_number := MAP_MAGIC_NUMBER } = m' := by
          simpa using hdup
        exact ⟨hb1, rfl⟩
    obtain rfl : m' = m := by simpa using heq
    exact hgoal
  | @setLF tbl f m' hr hset ih =>
    intro m heq
    have hgoal : m'.count = numOccupied m'.slots ∧
        m'.magic_number = MAP_MAGIC_NUMBER := by
      cases tbl with
      | none => exact absurd hset (by simp [map_set_load_factor])
      | some mb =>
        obtain ⟨hb1, hb2⟩ := ih mb rfl
        rw [map_set_load_factor] at hset
        obtain rfl : { mb with load_factor := f } = m' := by simpa using hset
        exact ⟨hb1, hb2⟩
    obtain rfl : m' = m := by simpa using heq
    exact hgoal
  | @setGF tbl f m' hr hset ih =>
    intro m heq
    have hgoal : m'.count = numOccupied m'.slots ∧
        m'.magic_number = MAP_MAGIC_NUMBER := by
      cases tbl with
      | none => exact absurd hset (by simp [map_set_growth_factor])
      | some mb =>
        obtain ⟨hb1, hb2⟩ := ih mb rfl
        rw [map_set_growth_factor] at hset
        obtain rfl : { mb with growth_factor := f } = m' := by simpa using hset
        exact ⟨hb1, hb2⟩
    obtain rfl : m' = m := by simpa using heq
    exact hgoal
  | @resize mb c m' hr hres ih =>
    intro m heq
    have hgoal : m'.count = numOccupied m'.slots ∧
        m'.magic_number = MAP_MAGIC_NUMBER := by
      obtain ⟨ha, hbq, _, _, _⟩ := mapResize_sound hres
      exact ⟨ha, hbq⟩
    obtain rfl : m' = m := by simpa using heq
    exact hgoal

/-! ## Sequences of insertions -/

/-- Threading a list of records through repeated `map_put` calls, starting
from the given handle. `none` models non-termination of some call. -/
def putSeq {V : Type u} :
    Option (MapState V) → List (Rcd V) → Option (Option (MapState V))
  | tbl, [] => some tbl
  | tbl, it :: rest =>
    match map_put_free tbl it with
    | none => none
    | some (m', _) => putSeq (some m') rest

section PutSeqLemmas

variable {V : Type u}

/-- Running a sequence of insertions with fresh, pairwise-distinct keys on a
well-formed table succeeds and stores exactly the old records plus the new
ones. -/
theorem putSeq_spec :
    ∀ (items : List (Rcd V)) (m : MapState V), WF m → m.load_factor ≤ 1 →
    (items.map Rcd.key).Nodup →
    (∀ r, r ∈ items → ∀ rs, storedIn m.slots rs → rs.key ≠ r.key) →
    ∃ m', putSeq (some m) items = some (some m') ∧ WF m' ∧
      m'.load_factor = m.load_factor ∧
      (∀ r, storedIn m'.slots r ↔ storedIn m.slots r ∨ r ∈ items) := by
  intro items
  induction items with
  | nil =>
    intro m hwf hlf hnodup hdisj
    exact ⟨m, rfl, hwf, rfl, fun r => by simp⟩
  | cons it rest ih =>
    intro m hwf hlf hnodup hdisj
    obtain ⟨hcap, hcnt, hocc, hu, hreach, hmagic⟩ := hwf
    obtain ⟨p1, hp1⟩ := Option.isSome_iff_exists.mp
      (put_total hcap hcnt hu hocc it)
    obtain ⟨m1, fr1⟩ := p1
    obtain ⟨hcap1, hcnt1, hu1, hreach1, hmagic1, hlf1, hgf1, hcaple1, hnf1,
      hst1, hfr1⟩ := put_spec hcap hcnt hu hreach hocc hmagic hp1
    have hwf1 : WF m1 :=
      ⟨hcap1, hcnt1, hnf1 hlf, hu1, hreach1, hmagic1⟩
    have hnodup' := hnodup
    rw [List.map_cons, List.nodup_cons] at hnodup'
    obtain ⟨hhd, htl⟩ := hnodup'
    have hst1' : ∀ r, storedIn m1.slots r ↔ r = it ∨ storedIn m.slots r := by
      intro r
      rw [hst1 r]
      constructor
      · rintro (rfl | ⟨hst, _⟩)
        · exact Or.inl rfl
        · exact Or.inr hst
      · rintro (rfl | hst)
        · exact Or.inl rfl
        · exact Or.inr ⟨hst, hdisj it (by simp) r hst⟩
    obtain ⟨m', hseq, hwf', hlf', hstf⟩ := ih m1 hwf1 (by rw [hlf1]; exact hlf)
      htl
      (by
        intro r hrmem rs hrs
        rcases (hst1' rs).mp hrs with rfl | hrs'
        · intro he
          exact hhd (by
            rw [he]
            exact List.mem_map.mpr ⟨r, hrmem, rfl⟩)
        · exact hdisj r (by simp [hrmem]) rs hrs')
    refine ⟨m', ?_, hwf', by rw [hlf', hlf1], ?_⟩
    · show putSeq (some m) (it :: rest) = some (some m')
      rw [putSeq, hp1]
      exact hseq
    · intro r
      rw [hstf r, hst1' r]
      simp only [List.mem_cons]
      tauto

end PutSeqLemmas

/-! ## Deletion repair: the cluster walk

`map_delete_impl_idx` clears the found slot and re-inserts every record of
the occupied run that follows it. The development below shows that, on a
well-formed table, the walk stops at the first slot that was empty before
the deletion, never disturbs the records outside the walked run, relocates
each walked record to the first empty slot of its own probe run (never past
the walk position), and therefore restores the probing invariant. -/

section WalkLemmas

variable {V : Type u}

theorem keysUniq_set_none {l : Slots V} {p : Nat} (hu : keysUniq l) :
    keysUniq (l.set p none) := by
  apply keysUniq_of
  intro p1 p2 r1 r2 h1 h2 hk
  have hp1 : p1 ≠ p := by
    rintro rfl
    by_cases hplt : p1 < l.length
    · rw [slot_set_self hplt] at h1
      exact absurd h1 (by simp)
    · have := slot_lt_of_some h1
      rw [List.length_set] at this
      omega
  have hp2 : p2 ≠ p := by
    rintro rfl
    by_cases hplt : p2 < l.length
    · rw [slot_set_self hplt] at h2
      exact absurd h2 (by simp)
    · have := slot_lt_of_some h2
      rw [List.length_set] at this
      omega
  rw [slot_set_ne (Ne.symm hp1)] at h1
  rw [slot_set_ne (Ne.symm hp2)] at h2
  exact keysUniq_ext hu h1 h2 hk

/-- When `y` lies on the forward path from `x` to `z`, the remaining
distance is the difference. -/
theorem cdist_sub {cap x y z : Nat} (hcap : 0 < cap) (hx : x < cap)
    (hy : y < cap) (hz : z < cap) (h : cdist cap x y ≤ cdist cap x z) :
    cdist cap y z = cdist cap x z - cdist cap x y := by
  have hadd := cdist_add hcap hx hy hz
  have h1 := cdist_lt hcap hx hy
  have h2 := cdist_lt hcap hy hz
  have h3 := cdist_lt hcap hx hz
  rcases Nat.lt_or_ge (cdist cap x y + cdist cap y z) cap with hc | hc
  · rw [Nat.mod_eq_of_lt hc] at hadd
    omega
  · rw [mod_eq_sub_of_lt_two hc (by omega)] at hadd
    omega

/-- If the sum of a probe offset and another distance reduces to a larger
distance modulo the capacity, no wraparound occurred. -/
theorem add_mod_no_wrap {cap u b A : Nat} (hu : u < cap) (hb : b < cap)
    (hA : A = (u + b) % cap) (hlt : u < A) (hAcap : A < cap) : A = u + b := by
  rcases Nat.lt_or_ge (u + b) cap with hc | hc
  · rw [Nat.mod_eq_of_lt hc] at hA
    exact hA
  · rw [mod_eq_sub_of_lt_two hc (by omega)] at hA
    omega

/-- The walk invariant: after the walk has processed positions
`idx + 1 … idx + t` of the table obtained by clearing `idx`, the slots
further than `t` past `idx` are untouched, exactly one record (the deleted
one) is gone, keys are still unique, and every record in the touched region
sits at the end of an occupied run that avoids the not-yet-walked strip
`(idx + t, idx + D + 1]`. -/
def walkInv (S0 : Slots V) (idx D : Nat) (d : Rcd V) (t : Nat)
    (S : Slots V) : Prop :=
  S.length = S0.length ∧
  (∀ p, t < cdist S0.length idx p → S.getD p none = S0.getD p none) ∧
  numOccupied S + 1 = numOccupied S0 ∧
  (∀ r, storedIn S r ↔ storedIn S0 r ∧ r ≠ d) ∧
  keysUniq S ∧
  (∀ p r, S.getD p none = some r → cdist S0.length idx p ≤ t →
    ∀ u, u < cdist S0.length (bucket r.key S0.length) p →
      (S.getD ((bucket r.key S0.length + u) % S0.length) none).isSome = true ∧
      (cdist S0.length idx ((bucket r.key S0.length + u) % S0.length) ≤ t ∨
       D + 1 < cdist S0.length idx ((bucket r.key S0.length + u) % S0.length)))

/-- Assumptions about the pre-delete table: the deleted record `d` sits in
slot `idx`, the table is well-formed, and `D` is the distance from
`idx + 1` to the first empty slot (which exists and is not `idx`). -/
structure WalkCtx (S0 : Slots V) (idx D : Nat) (d : Rcd V) : Prop where
  hcap : 0 < S0.length
  hidx : idx < S0.length
  hd : S0.getD idx none = some d
  hu0 : keysUniq S0
  hreach0 : reachInv S0
  hDempty : S0.getD ((idx + 1 + D) % S0.length) none = none
  hDmin : ∀ s, s < D →
    (S0.getD ((idx + 1 + s) % S0.length) none).isSome = true
  hDcap : D + 1 < S0.length

section WalkSteps

variable {S0 : Slots V} {idx D : Nat} {d : Rcd V}

/-- Distance from `idx` to a walk position. -/
theorem pos_cdist (ctx : WalkCtx S0 idx D d) {s : Nat}
    (hs : s + 1 < S0.length) :
    cdist S0.length idx ((idx + 1 + s) % S0.length) = s + 1 := by
  have h1 : idx + 1 + s = idx + (s + 1) := by omega
  rw [h1]
  rw [cdist_probe ctx.hidx hs]

/-- A position whose distance from `idx` is `s + 1` is the walk position
`idx + 1 + s`. -/
theorem pos_of_cdist (ctx : WalkCtx S0 idx D d) {p s : Nat}
    (hp : p < S0.length) (h : cdist S0.length idx p = s + 1) :
    p = (idx + 1 + s) % S0.length := by
  have h1 := probe_cdist ctx.hidx hp
  rw [h] at h1
  rw [← h1]
  congr 1
  omega

/-- Distance between two walk positions, forward case. -/
theorem pos_pos_cdist_forward (ctx : WalkCtx S0 idx D d) {s s' : Nat}
    (hss : s ≤ s') (hs' : s' + 1 < S0.length) :
    cdist S0.length ((idx + 1 + s) % S0.length)
      ((idx + 1 + s') % S0.length) = s' - s := by
  have h1 : (idx + 1 + s') % S0.length =
      ((idx + 1 + s) % S0.length + (s' - s)) % S0.length := by
    rw [Nat.mod_add_mod]
    congr 1
    omega
  rw [h1]
  exact cdist_probe (probe_lt ctx.hcap) (by omega)

/-- Distance between two walk positions, wrapping case. -/
theorem pos_pos_cdist_back (ctx : WalkCtx S0 idx D d) {s s' : Nat}
    (hts : s < s') (hs' : s' + 1 < S0.length) :
    cdist S0.length ((idx + 1 + s') % S0.length)
      ((idx + 1 + s) % S0.length) = S0.length - (s' - s) := by
  have h1 : (idx + 1 + s) % S0.length =
      ((idx + 1 + s') % S0.length + (S0.length - (s' - s))) % S0.length := by
    rw [Nat.mod_add_mod]
    have h2 : idx + 1 + s' + (S0.length - (s' - s)) =
        idx + 1 + s + S0.length := by omega
    rw [h2, Nat.add_mod_right]
  rw [h1]
  exact cdist_probe (probe_lt ctx.hcap) (by omega)

/-- The repair walk terminates at the first pre-delete empty slot and
carries the invariant there. -/
theorem walk_main (ctx : WalkCtx S0 idx D d) :
    ∀ (n t : Nat) (S : Slots V) (fuel : Nat), t + n = D →
    walkInv S0 idx D d t S → D + 1 - t ≤ fuel →
    ∃ S', deleteWalk S fuel ((idx + 1 + t) % S0.length) = some S' ∧
      walkInv S0 idx D d D S' := by
  intro n
  induction n with
  | zero =>
    intro t S fuel ht hinv hfuel
    obtain rfl : D = t := by omega
    obtain ⟨hlen, huntouched, hocc, hstored, huniq, hregion⟩ := hinv
    cases fuel with
    | zero => omega
    | succ f =>
      have hslot : S.getD ((idx + 1 + D) % S0.length) none = none := by
        rw [huntouched _ (by rw [pos_cdist ctx ctx.hDcap]; omega)]
        exact ctx.hDempty
      refine ⟨S, ?_, hlen, huntouched, hocc, hstored, huniq, hregion⟩
      simp only [deleteWalk, hslot]
  | succ n ih =>
    intro t S fuel ht hinv hfuel
    have htD : t < D := by omega
    obtain ⟨hlen, huntouched, hocc, hstored, huniq, hregion⟩ := hinv
    have htcap : t + 1 < S0.length := by have := ctx.hDcap; omega
    have hposlt : (idx + 1 + t) % S0.length < S0.length := probe_lt ctx.hcap
    have hSpos : S.getD ((idx + 1 + t) % S0.length) none =
        S0.getD ((idx + 1 + t) % S0.length) none :=
      huntouched _ (by rw [pos_cdist ctx htcap]; omega)
    obtain ⟨temp, htemp0⟩ := Option.isSome_iff_exists.mp (ctx.hDmin t htD)
    have htempS : S.getD ((idx + 1 + t) % S0.length) none = some temp := by
      rw [hSpos, htemp0]
    cases fuel with
    | zero => omega
    | succ f =>
      have htkey : bucket temp.key S0.length < S0.length :=
        Nat.mod_lt _ ctx.hcap
      have hrun0 := reachInv_ext ctx.hreach0 htemp0
      have hac : cdist S0.length (bucket temp.key S0.length)
          ((idx + 1 + t) % S0.length) < S0.length :=
        cdist_lt ctx.hcap htkey hposlt
      have hpos_a : (bucket temp.key S0.length +
          cdist S0.length (bucket temp.key S0.length)
            ((idx + 1 + t) % S0.length)) % S0.length =
          (idx + 1 + t) % S0.length := probe_cdist htkey hposlt
      -- the stopping slot F lies strictly beyond temp's pre-delete run
      have hFfar : cdist S0.length (bucket temp.key S0.length)
          ((idx + 1 + t) % S0.length) <
          cdist S0.length (bucket temp.key S0.length)
            ((idx + 1 + D) % S0.length) := by
        by_contra hle
        push_neg at hle
        have hFpos : (bucket temp.key S0.length +
            cdist S0.length (bucket temp.key S0.length)
              ((idx + 1 + D) % S0.length)) % S0.length =
            (idx + 1 + D) % S0.length := probe_cdist htkey (probe_lt ctx.hcap)
        rcases Nat.lt_or_eq_of_le hle with hlt | heqa
        · have hsome := hrun0 _ hlt
          rw [hFpos] at hsome
          rw [ctx.hDempty] at hsome
          exact absurd hsome (by simp)
        · rw [heqa, hpos_a] at hFpos
          have hcon := ctx.hDempty
          rw [← hFpos, htemp0] at hcon
          exact absurd hcon (by simp)
      -- run findEmpty on the cleared table
      have hs2len : (S.set ((idx + 1 + t) % S0.length) none).length =
          S0.length := by rw [List.length_set, hlen]
      have hs2pos_empty : (S.set ((idx + 1 + t) % S0.length) none).getD
          ((idx + 1 + t) % S0.length) none = none :=
        slot_set_self (by rw [hlen]; exact hposlt) _
      have hhs2 : bucket temp.key
          (S.set ((idx + 1 + t) % S0.length) none).length <
          (S.set ((idx + 1 + t) % S0.length) none).length := by
        rw [hs2len]
        exact htkey
      obtain ⟨k0, hk0len0, hk0run0, hk0empty0, hk0find⟩ :=
        findEmpty_success hhs2 (Nat.le_refl _)
          ⟨_, by rw [hs2len]; exact hposlt, hs2pos_empty⟩
      have hk0len : k0 < S0.length := by rw [← hs2len]; exact hk0len0
      have hk0run : ∀ u, u < k0 →
          ((S.set ((idx + 1 + t) % S0.length) none).getD
            ((bucket temp.key S0.length + u) % S0.length) none).isSome = true := by
        intro u hu
        have := hk0run0 u hu
        rw [hs2len] at this
        exact this
      have hk0empty : (S.set ((idx + 1 + t) % S0.length) none).getD
          ((bucket temp.key S0.length + k0) % S0.length) none = none := by
        have := hk0empty0
        rw [hs2len] at this
        exact this
      have hqlt : (bucket temp.key S0.length + k0) % S0.length < S0.length :=
        probe_lt ctx.hcap
      have hqlt2 : (bucket temp.key S0.length + k0) % S0.length <
          (S.set ((idx + 1 + t) % S0.length) none).length := by
        rw [hs2len]
        exact hqlt
      -- the reinsertion lands at or before the walk position
      have hk0a : k0 ≤ cdist S0.length (bucket temp.key S0.length)
          ((idx + 1 + t) % S0.length) := by
        by_contra hgt
        push_neg at hgt
        have hsome := hk0run _ hgt
        rw [hpos_a] at hsome
        rw [hs2pos_empty] at hsome
        exact absurd hsome (by simp)
      -- the reinsertion target is in the already-walked region
      have hcq : cdist S0.length idx
          ((bucket temp.key S0.length + k0) % S0.length) ≤ t + 1 := by
        by_contra hqc
        push_neg at hqc
        have hqne : (bucket temp.key S0.length + k0) % S0.length ≠
            (idx + 1 + t) % S0.length := by
          intro he
          have hcd := pos_cdist ctx htcap
          rw [← he] at hcd
          omega
        have hq_untouched : (S.set ((idx + 1 + t) % S0.length) none).getD
            ((bucket temp.key S0.length + k0) % S0.length) none =
            S0.getD ((bucket temp.key S0.length + k0) % S0.length) none := by
          rw [slot_set_ne (Ne.symm hqne)]
          exact huntouched _ (by omega)
        rcases Nat.lt_or_ge (cdist S0.length idx
            ((bucket temp.key S0.length + k0) % S0.length)) (D + 2)
            with hle | hgt2
        · obtain ⟨s', hs'⟩ : ∃ s', cdist S0.length idx
              ((bucket temp.key S0.length + k0) % S0.length) = s' + 1 :=
            ⟨cdist S0.length idx
              ((bucket temp.key S0.length + k0) % S0.length) - 1, by omega⟩
          have hqpos := pos_of_cdist ctx hqlt hs'
          rcases Nat.lt_or_ge s' D with hsD | hsD
          · have hsome := ctx.hDmin s' hsD
            rw [← hqpos] at hsome
            rw [← hq_untouched, hk0empty] at hsome
            exact absurd hsome (by simp)
          · have hs'D : s' = D := by omega
            have hcdq : cdist S0.length (bucket temp.key S0.length)
                ((bucket temp.key S0.length + k0) % S0.length) = k0 :=
              cdist_probe htkey hk0len
            rw [hqpos, hs'D] at hcdq
            omega
        · rcases Nat.lt_or_eq_of_le hk0a with hlt | heq
          · have hsome := hrun0 k0 hlt
            rw [← hq_untouched, hk0empty] at hsome
            exact absurd hsome (by simp)
          · have hqe : (bucket temp.key S0.length + k0) % S0.length =
                (idx + 1 + t) % S0.length := by
              rw [heq, hpos_a]
            exact hqne hqe
      -- run positions of the reinserted record avoid the unwalked strip
      have hregion_run : ∀ u, u < k0 →
          cdist S0.length idx
            ((bucket temp.key S0.length + u) % S0.length) ≤ t + 1 ∨
          D + 1 < cdist S0.length idx
            ((bucket temp.key S0.length + u) % S0.length) := by
        intro u hu
        by_contra hcon
        push_neg at hcon
        obtain ⟨h1, h2⟩ := hcon
        have hDcap := ctx.hDcap
        have hpult : (bucket temp.key S0.length + u) % S0.length <
            S0.length := probe_lt ctx.hcap
        obtain ⟨s', hs'eq⟩ : ∃ s', cdist S0.length idx
            ((bucket temp.key S0.length + u) % S0.length) = s' + 1 :=
          ⟨cdist S0.length idx
            ((bucket temp.key S0.length + u) % S0.length) - 1, by omega⟩
        have hts' : t < s' := by omega
        have hs'le : s' ≤ D := by omega
        have hpupos := pos_of_cdist ctx hpult hs'eq
        have hcdpu : cdist S0.length (bucket temp.key S0.length)
            ((bucket temp.key S0.length + u) % S0.length) = u :=
          cdist_probe htkey (by omega)
        rcases Nat.lt_or_eq_of_le hs'le with hsD | hsD
        · have hb : cdist S0.length
              ((bucket temp.key S0.length + u) % S0.length)
              ((idx + 1 + t) % S0.length) = S0.length - (s' - t) := by
            rw [hpupos]
            exact pos_pos_cdist_back ctx (by omega) (by omega)
          have hbF : cdist S0.length
              ((bucket temp.key S0.length + u) % S0.length)
              ((idx + 1 + D) % S0.length) = D - s' := by
            rw [hpupos]
            exact pos_pos_cdist_forward ctx (by omega) ctx.hDcap
          have hadd1 := cdist_add ctx.hcap htkey hpult hposlt
          rw [hcdpu, hb] at hadd1
          have hadd2 := cdist_add ctx.hcap htkey hpult
            (probe_lt ctx.hcap (a := idx + 1) (t := D))
          rw [hcdpu, hbF] at hadd2
          rcases Nat.lt_or_ge (u + (S0.length - (s' - t))) S0.length
              with hc | hc
          · rw [Nat.mod_eq_of_lt hc] at hadd1
            have hsmall : u + (D - s') < S0.length := by
              have := ctx.hDcap
              omega
            rw [Nat.mod_eq_of_lt hsmall] at hadd2
            have := ctx.hDcap
            omega
          · rw [mod_eq_sub_of_lt_two hc (by omega)] at hadd1
            omega
        · rw [hpupos, hsD] at hcdpu
          omega
      -- fresh-key fact for the reinsertion
      have hsts2 : ∀ r, storedIn (S.set ((idx + 1 + t) % S0.length) none) r ↔
          storedIn S r ∧ r ≠ temp :=
        fun r => storedIn_set_none htempS huniq
      have htemp_keyne : ∀ r', storedIn
          (S.set ((idx + 1 + t) % S0.length) none) r' →
          r'.key ≠ temp.key := by
        intro r' hst hkeq
        obtain ⟨⟨p1, hp1⟩, hne⟩ := (hsts2 r').mp hst
        have := keysUniq_ext huniq hp1 htempS hkeq
        rw [this, htempS] at hp1
        exact hne (by simpa using hp1.symm)
      -- the new invariant after this step
      have hinv' : walkInv S0 idx D d (t + 1)
          ((S.set ((idx + 1 + t) % S0.length) none).set
            ((bucket temp.key S0.length + k0) % S0.length) (some temp)) := by
        refine ⟨by rw [List.length_set, hs2len], ?_, ?_, ?_, ?_, ?_⟩
        · intro p hp
          have hqnep : (bucket temp.key S0.length + k0) % S0.length ≠ p := by
            intro he
            rw [he] at hcq
            omega
          have hposnep : (idx + 1 + t) % S0.length ≠ p := by
            intro he
            have hcd := pos_cdist ctx htcap
            rw [he] at hcd
            omega
          rw [slot_set_ne hqnep, slot_set_ne hposnep]
          exact huntouched p (by omega)
        · have e1 := numOccupied_set_none htempS
          have e2 := numOccupied_set_some temp hqlt2 hk0empty
          rw [e2]
          omega
        · intro r
          rw [storedIn_set_some hqlt2 hk0empty, hsts2 r]
          constructor
          · rintro (heq | ⟨hst, _⟩)
            · subst heq
              exact (hstored _).mp ⟨_, htempS⟩
            · exact (hstored r).mp hst
          · intro h
            by_cases hr : r = temp
            · exact Or.inl hr
            · exact Or.inr ⟨(hstored r).mpr h, hr⟩
        · exact keysUniq_set_some (keysUniq_set_none huniq) hqlt2 hk0empty
            htemp_keyne
        · intro p r hpr hple u hu
          by_cases hpq : p = (bucket temp.key S0.length + k0) % S0.length
          · subst hpq
            rw [slot_set_self hqlt2] at hpr
            obtain rfl : temp = r := by simpa using hpr
            have hcdq : cdist S0.length (bucket temp.key S0.length)
                ((bucket temp.key S0.length + k0) % S0.length) = k0 :=
              cdist_probe htkey hk0len
            rw [hcdq] at hu
            refine ⟨?_, hregion_run u hu⟩
            exact isSome_set_of_isSome (hk0run u hu)
          · have hprs2 : (S.set ((idx + 1 + t) % S0.length) none).getD p none =
                some r := by
              rw [slot_set_ne (Ne.symm hpq)] at hpr
              exact hpr
            have hpnepos : p ≠ (idx + 1 + t) % S0.length := by
              intro he
              rw [he, hs2pos_empty] at hprs2
              exact absurd hprs2 (by simp)
            have hprS : S.getD p none = some r := by
              rw [slot_set_ne (Ne.symm hpnepos)] at hprs2
              exact hprs2
            have hplt' : p < S0.length := by
              have := slot_lt_of_some hprS
              omega
            have hplet : cdist S0.length idx p ≤ t := by
              rcases Nat.lt_or_eq_of_le hple with h | h
              · omega
              · exact absurd (pos_of_cdist ctx hplt' (by omega)) hpnepos
            obtain ⟨hocc_u, hreg_u⟩ := hregion p r hprS hplet u hu
            constructor
            · by_cases hpuq : (bucket r.key S0.length + u) % S0.length =
                  (bucket temp.key S0.length + k0) % S0.length
              · rw [hpuq, slot_set_self hqlt2]
                rfl
              · rw [slot_set_ne (Ne.symm hpuq)]
                have hpunepos : (bucket r.key S0.length + u) % S0.length ≠
                    (idx + 1 + t) % S0.length := by
                  intro he
                  have hcd := pos_cdist ctx htcap
                  rw [← he] at hcd
                  rcases hreg_u with h | h <;> omega
                rw [slot_set_ne (Ne.symm hpunepos)]
                exact hocc_u
            · exact hreg_u.imp (fun h => by omega) id
      obtain ⟨S', hwalk', hinv''⟩ := ih (t + 1) _ f (by omega) hinv' (by omega)
      refine ⟨S', ?_, hinv''⟩
      simp only [deleteWalk, htempS]
      have hqeq : (bucket temp.key
          (S.set ((idx + 1 + t) % S0.length) none).length + k0) %
          (S.set ((idx + 1 + t) % S0.length) none).length =
          (bucket temp.key S0.length + k0) % S0.length := by
        rw [hs2len]
      rw [hk0find]
      have hidx2 : ((idx + 1 + t) % S0.length + 1) % S.length =
          (idx + 1 + (t + 1)) % S0.length := by
        rw [hlen, Nat.mod_add_mod]
        congr 1
      rw [hqeq, hidx2]
      exact hwalk'

/-- The invariant holds at distance `0` for the table with the victim's
slot cleared. -/
theorem walkInv_init (ctx : WalkCtx S0 idx D d) :
    walkInv S0 idx D d 0 (S0.set idx none) := by
  refine ⟨by rw [List.length_set], ?_, numOccupied_set_none ctx.hd,
    fun r => storedIn_set_none ctx.hd ctx.hu0, keysUniq_set_none ctx.hu0, ?_⟩
  · intro p hp
    have hpne : idx ≠ p := by
      rintro rfl
      simp [cdist] at hp
    exact slot_set_ne hpne _
  · intro p r hpr hple u hu
    exfalso
    have hidx := ctx.hidx
    have hplt : p < S0.length := by
      have := slot_lt_of_some hpr
      rw [List.length_set] at this
      exact this
    have hpeq : p = idx := by
      have hp0 : cdist S0.length idx p = 0 := Nat.le_zero.mp hple
      unfold cdist at hp0
      split at hp0 <;> omega
    rw [hpeq, slot_set_self ctx.hidx] at hpr
    exact absurd hpr (by simp)

/-- At the end of the walk the probing invariant holds again. -/
theorem walkInv_final_reach (ctx : WalkCtx S0 idx D d) {S' : Slots V}
    (hinv : walkInv S0 idx D d D S') : reachInv S' := by
  obtain ⟨hlen, huntouched, hocc, hstored, huniq, hregion⟩ := hinv
  apply reachInv_of
  intro p r hpr u hu
  rw [hlen] at hu ⊢
  have hcap := ctx.hcap
  have hidx := ctx.hidx
  have hDcap := ctx.hDcap
  have hplt : p < S0.length := by
    have := slot_lt_of_some hpr
    omega
  rcases le_or_lt (cdist S0.length idx p) D with hple | hpgt
  · exact (hregion p r hpr hple u hu).1
  · have hp0 : S0.getD p none = some r := by
      rw [← huntouched p hpgt]
      exact hpr
    have hpD : D + 1 < cdist S0.length idx p := by
      rcases Nat.lt_or_eq_of_le (Nat.succ_le_of_lt hpgt) with h | h
      · exact h
      · exfalso
        have hpF : p = (idx + 1 + D) % S0.length := pos_of_cdist ctx hplt h.symm
        rw [hpF, ctx.hDempty] at hp0
        exact absurd hp0 (by simp)
    have hreach0 := reachInv_ext ctx.hreach0 hp0
    have hrkey : bucket r.key S0.length < S0.length := Nat.mod_lt _ hcap
    have hxlt : (bucket r.key S0.length + u) % S0.length < S0.length :=
      probe_lt hcap
    have hposD : (idx + 1 + D) % S0.length < S0.length := probe_lt hcap
    have hxfar : D < cdist S0.length idx
        ((bucket r.key S0.length + u) % S0.length) := by
      by_contra hle
      push_neg at hle
      have hc := cdist_lt hcap hrkey hplt
      have hult : u < S0.length := by omega
      have hbx : cdist S0.length (bucket r.key S0.length)
          ((bucket r.key S0.length + u) % S0.length) = u :=
        cdist_probe hrkey hult
      have hxp := cdist_sub hcap hrkey hxlt hplt (by rw [hbx]; omega)
      rw [hbx] at hxp
      have hip := cdist_sub hcap hidx hxlt hplt (by omega)
      have hiD := pos_cdist ctx hDcap
      have hxD := cdist_sub hcap hidx hxlt hposD (by rw [hiD]; omega)
      rw [hiD] at hxD
      have hvlt : u + cdist S0.length
          ((bucket r.key S0.length + u) % S0.length)
          ((idx + 1 + D) % S0.length) <
          cdist S0.length (bucket r.key S0.length) p := by omega
      have hoccD := hreach0 _ hvlt
      have hposeq : (bucket r.key S0.length + (u + cdist S0.length
          ((bucket r.key S0.length + u) % S0.length)
          ((idx + 1 + D) % S0.length))) % S0.length =
          (idx + 1 + D) % S0.length := by
        rw [← Nat.add_assoc]
        conv_lhs => rw [← Nat.mod_add_mod]
        exact probe_cdist hxlt hposD
      rw [hposeq, ctx.hDempty] at hoccD
      exact absurd hoccD (by simp)
    have hx0 := huntouched _ hxfar
    rw [hx0]
    exact hreach0 u hu

end WalkSteps

/-- Under the probing invariant, the delete search finds the slot of the
stored record with the sought key. -/
theorem findDelete_found {m : MapState V} (hcap : 0 < m.capacity)
    (hu : keysUniq m.slots) (hr : reachInv m.slots) {p : Nat} {r : Rcd V}
    (hp : m.slots.getD p none = some r) :
    findDelete m.slots r.key m.slots.length
      (bucket r.key m.slots.length) = some (some (p, r)) := by
  have hplt : p < m.slots.length := slot_lt_of_some hp
  have hcap' : 0 < m.slots.length := hcap
  set h0 := bucket r.key m.slots.length with hh0
  have hh0lt : h0 < m.slots.length := Nat.mod_lt _ hcap'
  set k := cdist m.slots.length h0 p with hkdef
  have hklt : k < m.slots.length := cdist_lt hcap' hh0lt hplt
  have hit : m.slots.getD ((h0 + k) % m.slots.length) none = some r := by
    rw [hkdef, probe_cdist hh0lt hplt]
    exact hp
  have hrun : ∀ t, t < k →
      ∃ r', m.slots.getD ((h0 + t) % m.slots.length) none = some r' ∧
        r'.key ≠ r.key := by
    intro t ht
    have hsome := reachInv_ext hr hp t (by rw [← hh0, ← hkdef] at *; exact ht)
    obtain ⟨r', hr'⟩ := Option.isSome_iff_exists.mp hsome
    refine ⟨r', by rw [← hh0] at hr'; exact hr', ?_⟩
    intro hkeq
    have := keysUniq_ext hu (by rw [← hh0] at hr'; exact hr') hp hkeq
    have ht' : (h0 + t) % m.slots.length = (h0 + k) % m.slots.length := by
      rw [hkdef, probe_cdist hh0lt hplt]
      exact this
    have := probe_inj hh0lt (by omega) hklt ht'
    omega
  have hres := findDelete_at_found hh0lt hklt hrun hit rfl
  rw [hkdef, probe_cdist hh0lt hplt] at hres
  exact hres

/-- When no stored record has the key, the delete search stops at an empty
slot and reports the key absent. -/
theorem findDelete_absent {m : MapState V} (hcap : 0 < m.capacity)
    (hocc : numOccupied m.slots < m.slots.length) {key : String}
    (habs : ∀ p r, m.slots.getD p none = some r → r.key ≠ key) :
    findDelete m.slots key m.slots.length (bucket key m.slots.length) =
      some none := by
  have hcap' : 0 < m.slots.length := hcap
  obtain ⟨p0, hp0lt, hp0⟩ := exists_empty_of_occ_lt hocc
  set h0 := bucket key m.slots.length with hh0
  have hh0lt : h0 < m.slots.length := Nat.mod_lt _ hcap'
  have hex : ∃ s,
      (m.slots.getD ((h0 + s) % m.slots.length) none).isNone = true :=
    ⟨cdist m.slots.length h0 p0, by rw [probe_cdist hh0lt hp0lt, hp0]; rfl⟩
  have hk := Nat.find_spec hex
  have hkle : Nat.find hex ≤ cdist m.slots.length h0 p0 :=
    Nat.find_min' hex (by rw [probe_cdist hh0lt hp0lt, hp0]; rfl)
  have hklt : Nat.find hex < m.slots.length := by
    have := cdist_lt hcap' hh0lt hp0lt
    omega
  have hrun : ∀ t, t < Nat.find hex →
      ∃ r', m.slots.getD ((h0 + t) % m.slots.length) none = some r' ∧
        r'.key ≠ key := by
    intro t ht
    have hne := Nat.find_min hex ht
    rcases hsl : m.slots.getD ((h0 + t) % m.slots.length) none with _ | r'
    · exact absurd (by rw [hsl]; rfl) hne
    · exact ⟨r', rfl, habs _ r' hsl⟩
  exact findDelete_at_empty hh0lt hklt hrun
    (Option.isNone_iff_eq_none.mp hk)

/-- From any well-formed table and occupied slot, a walk context exists:
take `D` to be the distance to the first empty slot past `idx`. -/
theorem exists_walkCtx {m : MapState V} (hWF : WF m) {idx : Nat} {d : Rcd V}
    (hd : m.slots.getD idx none = some d) :
    ∃ D, WalkCtx m.slots idx D d := by
  obtain ⟨hcap, hcount, hocclt, huniq, hreach, hmagic⟩ := hWF
  have hcap' : 0 < m.slots.length := hcap
  have hidxlt : idx < m.slots.length := slot_lt_of_some hd
  obtain ⟨p0, hp0lt, hp0⟩ := exists_empty_of_occ_lt hocclt
  have hp0ne : p0 ≠ idx := by
    rintro rfl
    rw [hd] at hp0
    exact absurd hp0 (by simp)
  have hcne : cdist m.slots.length idx p0 ≠ 0 := by
    intro h0
    unfold cdist at h0
    split at h0 <;> omega
  obtain ⟨c0, hc0⟩ : ∃ c0, cdist m.slots.length idx p0 = c0 + 1 :=
    ⟨cdist m.slots.length idx p0 - 1, by omega⟩
  have hpos0 : (idx + 1 + c0) % m.slots.length = p0 := by
    have hpc := probe_cdist hidxlt hp0lt
    rw [hc0] at hpc
    rw [← hpc]
    congr 1
    omega
  have hex : ∃ s,
      (m.slots.getD ((idx + 1 + s) % m.slots.length) none).isNone = true :=
    ⟨c0, by rw [hpos0, hp0]; rfl⟩
  have hDspec := Nat.find_spec hex
  have hDle : Nat.find hex ≤ c0 := Nat.find_min' hex (by rw [hpos0, hp0]; rfl)
  have hc0lt : c0 + 1 < m.slots.length := by
    have := cdist_lt hcap' hidxlt hp0lt
    omega
  refine ⟨Nat.find hex, hcap', hidxlt, hd, huniq, hreach,
    Option.isNone_iff_eq_none.mp hDspec, ?_, by omega⟩
  intro s hs
  have hne := Nat.find_min hex hs
  rcases hsl : m.slots.getD ((idx + 1 + s) % m.slots.length) none with _ | r'
  · exact absurd (by rw [hsl]; rfl) hne
  · rfl

/-- Full behaviour of `map_delete_impl_idx` on a well-formed table: the
walk succeeds, exactly the victim disappears, the metadata follows the C
code (`count` decremented), and well-formedness is restored. -/
theorem map_delete_impl_spec {m : MapState V} (hWF : WF m) {idx : Nat}
    {d : Rcd V} (hd : m.slots.getD idx none = some d) :
    ∃ m2, map_delete_impl_idx m idx = some m2 ∧
      m2.slots.length = m.slots.length ∧
      m2.count = m.count - 1 ∧
      m2.load_factor = m.load_factor ∧
      m2.growth_factor = m.growth_factor ∧
      m2.magic_number = m.magic_number ∧
      WF m2 ∧
      (∀ r, storedIn m2.slots r ↔ storedIn m.slots r ∧ r ≠ d) := by
  obtain ⟨D, ctx⟩ := exists_walkCtx hWF hd
  have hcapeq : m.capacity = m.slots.length := rfl
  have hfuel : D + 1 - 0 ≤ deleteWalkFuel m.capacity := by
    have hDcap := ctx.hDcap
    unfold deleteWalkFuel
    have h3 : 0 ≤ m.capacity * m.capacity * m.capacity := Nat.zero_le _
    omega
  obtain ⟨S', hwalk, hinv⟩ := walk_main ctx D 0 (m.slots.set idx none)
    (deleteWalkFuel m.capacity) (by omega) (walkInv_init ctx) hfuel
  have hreach' := walkInv_final_reach ctx hinv
  obtain ⟨hlen, huntouched, hocc, hstored, huniq', -⟩ := hinv
  obtain ⟨hcap, hcount, hocclt, -, -, hmagic⟩ := hWF
  refine ⟨{ m with slots := S', count := m.count - 1 }, ?_, hlen, rfl, rfl,
    rfl, rfl, ⟨?_, ?_, ?_, huniq', hreach', hmagic⟩, hstored⟩
  · simp only [map_delete_impl_idx]
    have hidxeq : (idx + 1) % m.capacity = (idx + 1 + 0) % m.slots.length :=
      rfl
    rw [hidxeq, hwalk]
    rfl
  · show 0 < S'.length
    omega
  · show m.count - 1 = numOccupied S'
    have h1 : 1 ≤ numOccupied m.slots := numOccupied_pos_of_some hd
    omega
  · show numOccupied S' < S'.length
    omega

/-- `map_delete_free` on a well-formed table and an absent key: no
mutation, no callback. -/
theorem delete_absent_spec {m : MapState V} (hWF : WF m) {key : String}
    (habs : ∀ p r, m.slots.getD p none = some r → r.key ≠ key) :
    map_delete_free (some m) key = some (some m, []) := by
  obtain ⟨hcap, hcount, hocclt, -, -, -⟩ := hWF
  have hfd := findDelete_absent hcap hocclt habs
  have heq : findDelete m.slots key m.capacity (bucket key m.capacity) =
      findDelete m.slots key m.slots.length (bucket key m.slots.length) :=
    rfl
  simp only [map_delete_free, heq, hfd]

/-- `map_delete_free` on a well-formed table and a stored record: the
callback fires exactly once on the victim, the victim (and nothing else)
is removed, `count` is decremented, and well-formedness is restored. -/
theorem delete_found_spec {m : MapState V} (hWF : WF m) {p : Nat}
    {d : Rcd V} (hp : m.slots.getD p none = some d) :
    ∃ m2, map_delete_free (some m) d.key = some (some m2, [d]) ∧
      m2.count = m.count - 1 ∧
      m2.capacity = m.capacity ∧
      m2.load_factor = m.load_factor ∧
      m2.growth_factor = m.growth_factor ∧
      WF m2 ∧
      (∀ r, storedIn m2.slots r ↔ storedIn m.slots r ∧ r ≠ d) := by
  obtain ⟨hcap, hcount, hocclt, huniq, hreach, hmagic⟩ := hWF
  have hfd := findDelete_found hcap huniq hreach hp
  obtain ⟨m2, himpl, hlen2, hcnt, hlf, hgf, hmag, hWF2, hst⟩ :=
    map_delete_impl_spec ⟨hcap, hcount, hocclt, huniq, hreach, hmagic⟩ hp
  refine ⟨m2, ?_, hcnt, hlen2, hlf, hgf, hWF2, hst⟩
  have heq : findDelete m.slots d.key m.capacity (bucket d.key m.capacity) =
      findDelete m.slots d.key m.slots.length
        (bucket d.key m.slots.length) := rfl
  simp only [map_delete_free, heq, hfd, himpl, Option.map_some']

end WalkLemmas

/-! ## Concrete tables used to instantiate the verified specifications -/

/-- A well-formed three-record table of capacity 5; each record sits in its
natural bucket (djb2("a") ≡ 0, djb2("b") ≡ 1, djb2("c") ≡ 2 (mod 5)). -/
def wMap2 : MapState Nat :=
  { load_factor := 3/4, growth_factor := 2, count := 3,
    slots := [some ⟨"a", 1⟩, some ⟨"b", 2⟩, some ⟨"c", 3⟩, none, none],
    magic_number := MAP_MAGIC_NUMBER }

/-- The slot array of a fresh default-capacity table after inserting
`("a", 0)` (djb2("a") ≡ 6 (mod 16)). -/
def wSlots1 : Slots Nat :=
  [none, none, none, none, none, none, some ⟨"a", 0⟩, none,
   none, none, none, none, none, none, none, none]

/-- The fresh default-capacity table after inserting `("a", 0)`. -/
def wPut1 : MapState Nat :=
  { load_factor := MAP_LOAD_FACTOR, growth_factor := MAP_GROWTH_FACTOR_DEFAULT,
    count := 1, slots := wSlots1, magic_number := MAP_MAGIC_NUMBER }

/-- `map_put_free` on a fresh default table: `("a", 0)` goes to slot 6 and
no growth happens (the threshold `(size_t)(16 · 0.75) = 12` is not met). -/
theorem wPut1_eq : map_put_free (some (freshMap Nat MAP_INIT_CAPACITY))
    ⟨"a", 0⟩ = some (wPut1, []) := by
  have hb : putBase (some (freshMap Nat MAP_INIT_CAPACITY)) =
      freshMap Nat MAP_INIT_CAPACITY := rfl
  have hng : ¬ growNeeded (freshMap Nat MAP_INIT_CAPACITY) := by
    have hth : ratToSizeT (((freshMap Nat MAP_INIT_CAPACITY).capacity : Rat) *
        (freshMap Nat MAP_INIT_CAPACITY).load_factor) = 12 :=
      ratToSizeT_eq
        (by norm_num [freshMap, MAP_LOAD_FACTOR, MAP_INIT_CAPACITY,
          MapState.capacity])
        (by norm_num [freshMap, MAP_LOAD_FACTOR, MAP_INIT_CAPACITY,
          MapState.capacity])
    unfold growNeeded
    rw [hth]
    have h0 : (freshMap Nat MAP_INIT_CAPACITY).count = 0 := rfl
    omega
  have hprobe : putProbe (freshMap Nat MAP_INIT_CAPACITY).slots ⟨"a", 0⟩
      (freshMap Nat MAP_INIT_CAPACITY).capacity
      (bucket "a" (freshMap Nat MAP_INIT_CAPACITY).capacity) =
      some (wSlots1, none) := by decide
  simp only [map_put_free]
  rw [hb, if_neg hng]
  simp only [Option.bind_eq_bind, Option.pure_def, Option.some_bind]
  rw [hprobe]
  rfl

/-! ## The claims -/

/-- C1: Round-trip. (i) For every sequence of insertions with pairwise
distinct keys threaded from the absent handle, the sequence terminates and
`map_get` finds every inserted key, returning the record with its
last-written (here: unique) value. (ii) Immediately after any successful
`map_put_free`, `map_get` of the inserted key returns the just-inserted or
just-updated record, with no assumption on the incoming handle. -/
theorem C1_roundtrip {V : Type u} (items : List (Rcd V))
    (hnodup : (items.map Rcd.key).Nodup) :
    (∃ t', putSeq (none : Option (MapState V)) items = some t' ∧
      ∀ r, r ∈ items → map_get t' (some r.key) = some r) ∧
    (∀ (tbl : Option (MapState V)) (item : Rcd V) (m' : MapState V)
      (fr : List (Rcd V)), map_put_free tbl item = some (m', fr) →
      map_get (some m') (some item.key) = some item) := by
  constructor
  · cases items with
    | nil =>
      refine ⟨none, rfl, ?_⟩
      intro r hr
      exact absurd hr (by simp)
    | cons it rest =>
      have hfresh : WF (freshMap V MAP_INIT_CAPACITY) :=
        WF_freshMap (by norm_num [MAP_INIT_CAPACITY])
      have hlf : (freshMap V MAP_INIT_CAPACITY).load_factor ≤ 1 := by
        norm_num [freshMap, MAP_LOAD_FACTOR]
      obtain ⟨m', hseq, hWF', hlf', hst'⟩ :=
        putSeq_spec (it :: rest) (freshMap V MAP_INIT_CAPACITY) hfresh hlf
          hnodup
          (by
            rintro r - rs ⟨p, hp⟩
            rw [show (freshMap V MAP_INIT_CAPACITY).slots =
              List.replicate MAP_INIT_CAPACITY none from rfl,
              slot_replicate] at hp
            exact absurd hp (by simp))
      have hstep : putSeq (none : Option (MapState V)) (it :: rest) =
          putSeq (some (freshMap V MAP_INIT_CAPACITY)) (it :: rest) := rfl
      refine ⟨some m', by rw [hstep]; exact hseq, ?_⟩
      intro r hr
      obtain ⟨hcap', hcnt', hocc', hu', hreach', hmg'⟩ := hWF'
      have hstored : storedIn m'.slots r := (hst' r).mpr (Or.inr hr)
      exact (getImpl_iff hcap' hu' hreach').mpr ⟨hstored, rfl⟩
  · intro tbl item m' fr hres
    exact put_get_roundtrip hres

/-- Witness for C1 at a concrete two-record insertion sequence. -/
theorem C1_roundtrip_witness :
    ∃ t', putSeq (none : Option (MapState Nat))
        [⟨"a", 1⟩, ⟨"b", 2⟩] = some t' ∧
      ∀ r, r ∈ [Rcd.mk "a" 1, Rcd.mk "b" 2] →
        map_get t' (some r.key) = some r :=
  (C1_roundtrip [⟨"a", 1⟩, ⟨"b", 2⟩] (by decide)).1

/-- C2: Deletion repair. On a well-formed table, deleting the key of any
stored record succeeds, decrements `count` by exactly one, makes
`map_get` of that key return not-found, and leaves every other stored
record retrievable by `map_get` unchanged; deleting an absent key returns
the table unchanged. -/
theorem C2_delete_repair {V : Type u} {m : MapState V} (hWF : WF m) :
    (∀ (p : Nat) (d : Rcd V), m.slots.getD p none = some d →
      ∃ m2, map_delete (some m) d.key = some (some m2) ∧
        m2.count + 1 = m.count ∧
        map_get (some m2) (some d.key) = none ∧
        ∀ r, storedIn m.slots r → r.key ≠ d.key →
          map_get (some m2) (some r.key) = some r) ∧
    (∀ key : String, (∀ r, storedIn m.slots r → r.key ≠ key) →
      map_delete (some m) key = some (some m)) := by
  obtain ⟨hcap, hcnt0, hocc0, hu, hreach, hmg⟩ := id hWF
  constructor
  · intro p d hp
    obtain ⟨m2, hres, hcnt, hcap2, hlf, hgf, hWF2, hst⟩ :=
      delete_found_spec hWF hp
    obtain ⟨hcap2', hcnt2', hocc2', hu2, hreach2, hmg2⟩ := id hWF2
    refine ⟨m2, ?_, ?_, ?_, ?_⟩
    · rw [map_delete, hres]
      rfl
    · have h1 : 1 ≤ numOccupied m.slots := numOccupied_pos_of_some hp
      omega
    · refine getImpl_none ?_
      intro q r hq hkeq
      obtain ⟨hstm, hne⟩ := (hst r).mp ⟨q, hq⟩
      obtain ⟨q', hq'⟩ := hstm
      have heqq := keysUniq_ext hu hq' hp hkeq
      rw [heqq, hp] at hq'
      exact hne (by simpa using hq'.symm)
    · intro r hstr hkne
      have hst2 : storedIn m2.slots r := (hst r).mpr ⟨hstr, by
        rintro rfl
        exact hkne rfl⟩
      exact (getImpl_iff hcap2' hu2 hreach2).mpr ⟨hst2, rfl⟩
  · intro key habs
    have habs' : ∀ q r, m.slots.getD q none = some r → r.key ≠ key :=
      fun q r hq => habs r ⟨q, hq⟩
    rw [map_delete, delete_absent_spec hWF habs']
    rfl

/-- Witness for C2: deleting `"a"` from the concrete table `wMap2`. -/
theorem C2_delete_repair_witness :
    ∃ m2, map_delete (some wMap2) (Rcd.mk "a" 1).key = some (some m2) ∧
      m2.count + 1 = wMap2.count ∧
      map_get (some m2) (some (Rcd.mk "a" 1).key) = none ∧
      ∀ r, storedIn wMap2.slots r → r.key ≠ (Rcd.mk "a" 1).key →
        map_get (some m2) (some r.key) = some r :=
  (C2_delete_repair (show WF wMap2 by decide)).1 0 ⟨"a", 1⟩ (by decide)

/-- The growth trigger exactly as the spec words it:
`(count + 1) ≥ capacity * load_factor` compared over the reals, with no
`(size_t)` truncation of the threshold. -/
def specGrowNeeded {V : Type u} (m : MapState V) : Prop :=
  ((m.count : Rat) + 1) ≥ (m.capacity : Rat) * m.load_factor

instance {V : Type u} (m : MapState V) : Decidable (specGrowNeeded m) := by
  unfold specGrowNeeded
  infer_instance

/-- A well-formed table of capacity 10 with 6 records and the default load
factor: the code's truncated threshold is `(size_t)(10 · 0.75) = 7 = count + 1`,
so the code grows, while the spec's untruncated comparison `7 ≥ 7.5` says
not to grow. -/
def cexMap : MapState Nat :=
  { load_factor := 3/4, growth_factor := 2, count := 6,
    slots := [some ⟨"a", 1⟩, some ⟨"b", 2⟩, some ⟨"c", 3⟩, some ⟨"d", 4⟩,
              some ⟨"e", 5⟩, some ⟨"f", 6⟩, none, none, none, none],
    magic_number := MAP_MAGIC_NUMBER }

/-- `cexMap`'s slot array after the automatic resize to capacity 20
(djb2("a") … djb2("f") ≡ 10 … 15 (mod 20)). -/
def cexSlots1 : Slots Nat :=
  [none, none, none, none, none, none, none, none, none, none,
   some ⟨"a", 1⟩, some ⟨"b", 2⟩, some ⟨"c", 3⟩, some ⟨"d", 4⟩,
   some ⟨"e", 5⟩, some ⟨"f", 6⟩, none, none, none, none]

/-- `cexSlots1` after the insertion of `("g", 7)` (djb2("g") ≡ 16 (mod 20)). -/
def cexSlots2 : Slots Nat :=
  [none, none, none, none, none, none, none, none, none, none,
   some ⟨"a", 1⟩, some ⟨"b", 2⟩, some ⟨"c", 3⟩, some ⟨"d", 4⟩,
   some ⟨"e", 5⟩, some ⟨"f", 6⟩, some ⟨"g", 7⟩, none, none, none]

/-- The intermediate table `mapResize cexMap 20` produces. -/
def cexMap1 : MapState Nat :=
  { load_factor := 3/4, growth_factor := 2, count := 6,
    slots := cexSlots1, magic_number := MAP_MAGIC_NUMBER }

/-- The table `map_put (some cexMap) ("g", 7)` returns. -/
def cexMap2 : MapState Nat :=
  { load_factor := 3/4, growth_factor := 2, count := 7,
    slots := cexSlots2, magic_number := MAP_MAGIC_NUMBER }

theorem cex_threshold :
    ratToSizeT ((cexMap.capacity : Rat) * cexMap.load_factor) = 7 :=
  ratToSizeT_eq
    (by norm_num [cexMap, MapState.capacity])
    (by norm_num [cexMap, MapState.capacity])

theorem cex_grow : growNeeded cexMap := by
  unfold growNeeded
  rw [cex_threshold]
  have h6 : cexMap.count = 6 := rfl
  omega

theorem cex_growCapacity : growCapacity cexMap = 20 := by
  unfold growCapacity
  have h20 : ratToSizeT ((cexMap.capacity : Rat) * cexMap.growth_factor) = 20 :=
    ratToSizeT_eq (by norm_num [cexMap, MapState.capacity])
      (by norm_num [cexMap, MapState.capacity])
  rw [h20]
  have h10 : cexMap.capacity = 10 := rfl
  rw [h10]
  rfl

theorem cex_resize : mapResize cexMap 20 = some cexMap1 := by
  have hrein : reinsertOld cexMap.slots
      (List.replicate 20 (none : Option (Rcd Nat))) 0 =
      some (cexSlots1, 6) := by decide
  simp only [mapResize]
  rw [hrein]
  rfl

theorem cex_put : map_put (some cexMap) ⟨"g", 7⟩ = some cexMap2 := by
  have hb : putBase (some cexMap) = cexMap := rfl
  simp only [map_put, map_put_free]
  rw [hb, if_pos cex_grow, cex_growCapacity, cex_resize]
  simp only [Option.bind_eq_bind, Option.some_bind]
  have hprobe : putProbe cexMap1.slots ⟨"g", 7⟩ cexMap1.capacity
      (bucket "g" cexMap1.capacity) = some (cexSlots2, none) := by decide
  rw [hprobe]
  rfl

/-- C3 (corrected): growth decision of `map_put`. The capacity-choice half
of the claim holds: whenever the automatic growth path runs it sets the new
capacity to `max(capacity + 1, (size_t)(capacity · growth_factor))`, a
strict increase even when `growth_factor ≤ 1`. The trigger half holds only
with the C cast kept: growth happens exactly when
`(count + 1) ≥ (size_t)(capacity · load_factor)` — the truncated threshold —
not when `(count + 1) ≥ capacity · load_factor` over the reals
(`C3_growth_counterexample` separates the two). -/
theorem C3_growth_decision {V : Type u} {m : MapState V} {item : Rcd V}
    {m' : MapState V} {fr : List (Rcd V)}
    (hres : map_put_free (some m) item = some (m', fr)) :
    (ratToSizeT ((m.capacity : Rat) * m.load_factor) ≤ m.count + 1 →
      m'.capacity = max (m.capacity + 1)
        (ratToSizeT ((m.capacity : Rat) * m.growth_factor)) ∧
      m.capacity < m'.capacity) ∧
    (m.count + 1 < ratToSizeT ((m.capacity : Rat) * m.load_factor) →
      m'.capacity = m.capacity) := by
  obtain ⟨m1, ns, fr0, hbranch, hprobe, hm', hfr⟩ := map_put_free_inv hres
  rw [show putBase (some m) = m from rfl] at hbranch
  have hcap1 : 0 < m1.slots.length := by
    by_contra hz
    have h0 : m1.slots.length = 0 := by omega
    have hc0 : m1.capacity = 0 := h0
    rw [hc0] at hprobe
    exact absurd hprobe (by simp [putProbe])
  have hh : bucket item.key m1.capacity < m1.slots.length :=
    Nat.mod_lt _ hcap1
  obtain ⟨k, hkf, hrun, hns, hcase⟩ := putProbe_some hh hprobe
  have hm'cap : m'.capacity = m1.capacity := by
    rw [hm']
    show ns.length = m1.slots.length
    rw [hns, List.length_set]
  rcases hbranch with ⟨hgrow, hres1⟩ | ⟨hgrow, rfl⟩
  · obtain ⟨-, -, hc, -, -⟩ := mapResize_sound hres1
    have hmax := growCapacity_eq_max (m := m)
    have hgt := growCapacity_gt (m := m)
    constructor
    · intro _
      rw [hm'cap, hc]
      exact ⟨hmax, hgt⟩
    · intro hlt
      unfold growNeeded at hgrow
      omega
  · constructor
    · intro hge
      unfold growNeeded at hgrow
      exact absurd hge hgrow
    · intro _
      rw [hm'cap]

/-- Witness for C3 at a concrete non-growing insertion into a fresh table. -/
theorem C3_growth_decision_witness :
    wPut1.capacity = (freshMap Nat MAP_INIT_CAPACITY).capacity :=
  (C3_growth_decision wPut1_eq).2
    (by
      have h12 : ratToSizeT
          (((freshMap Nat MAP_INIT_CAPACITY).capacity : Rat) *
            (freshMap Nat MAP_INIT_CAPACITY).load_factor) = 12 :=
        ratToSizeT_eq
          (by norm_num [freshMap, MAP_LOAD_FACTOR, MAP_INIT_CAPACITY,
            MapState.capacity])
          (by norm_num [freshMap, MAP_LOAD_FACTOR, MAP_INIT_CAPACITY,
            MapState.capacity])
      rw [h12]
      have h0 : (freshMap Nat MAP_INIT_CAPACITY).count = 0 := rfl
      omega)

/-- Counterexample to C3 as stated: on the well-formed table `cexMap`
(capacity 10, 6 records, load factor 3/4), the spec's untruncated trigger
`(count + 1) ≥ capacity · load_factor` is false (`7 < 7.5`), yet `map_put`
does grow the table, to capacity 20 — the code compares against the
truncated threshold `(size_t)(capacity · load_factor) = 7`. -/
theorem C3_growth_counterexample :
    WF cexMap ∧
    ¬ specGrowNeeded cexMap ∧
    growNeeded cexMap ∧
    map_put (some cexMap) ⟨"g", 7⟩ = some cexMap2 ∧
    cexMap.capacity = 10 ∧
    cexMap2.capacity = 20 := by
  refine ⟨by decide, ?_, cex_grow, cex_put, rfl, rfl⟩
  unfold specGrowNeeded
  norm_num [cexMap, MapState.capacity]

/-- C4: Resize equivalence. On a well-formed table, resizing to any
capacity at least the number of stored entries succeeds and yields a table
with the same count, the same `load_factor` and `growth_factor`, exactly
the same stored records, and the same `map_get` result for every key. -/
theorem C4_resize_equivalence {V : Type u} {m : MapState V} (hWF : WF m)
    {newCap : Nat} (hroom : numOccupied m.slots ≤ newCap) :
    ∃ m', mapResize m newCap = some m' ∧
      m'.capacity = newCap ∧
      m'.count = m.count ∧
      m'.load_factor = m.load_factor ∧
      m'.growth_factor = m.growth_factor ∧
      (∀ r, storedIn m'.slots r ↔ storedIn m.slots r) ∧
      (∀ key, map_get (some m') (some key) = map_get (some m) (some key)) := by
  obtain ⟨hcap, hcnt, hocc, hu, hreach, hmagic⟩ := hWF
  obtain ⟨m', hres, hcap', hcnt', hlf', hgf', hmg', hocc', hu', hreach',
    hst'⟩ := mapResize_spec hu hcnt hroom
  refine ⟨m', hres, hcap', hcnt', hlf', hgf', hst', ?_⟩
  intro key
  rcases Nat.eq_zero_or_pos newCap with hz | hpos
  · have hnost : ∀ r, ¬ storedIn m.slots r := by
      intro r hstr
      obtain ⟨p, hp⟩ := hstr
      have h1 : 1 ≤ numOccupied m.slots := numOccupied_pos_of_some hp
      omega
    have hget : map_get (some m) (some key) = none :=
      getImpl_none fun p r hp => absurd ⟨p, hp⟩ (hnost r)
    have hget' : map_get (some m') (some key) = none :=
      getImpl_none fun p r hp => absurd ((hst' r).mp ⟨p, hp⟩) (hnost r)
    rw [hget, hget']
  · have hmcap' : 0 < m'.capacity := by omega
    exact getImpl_congr hmcap' hu' hreach' hcap hu hreach hst' key

/-- Witness for C4: resizing the concrete table `wMap2` to capacity 7. -/
theorem C4_resize_equivalence_witness :
    ∃ m', mapResize wMap2 7 = some m' ∧
      m'.capacity = 7 ∧
      m'.count = wMap2.count ∧
      m'.load_factor = wMap2.load_factor ∧
      m'.growth_factor = wMap2.growth_factor ∧
      (∀ r, storedIn m'.slots r ↔ storedIn wMap2.slots r) ∧
      (∀ key, map_get (some m') (some key) = map_get (some wMap2) (some key)) :=
  C4_resize_equivalence (show WF wMap2 by decide)
    (show numOccupied wMap2.slots ≤ 7 by decide)

/-- C5: Idempotent update and the cleanup callback. On a well-formed table,
inserting a record whose key is already stored succeeds, replaces the old
record (lookup returns the new value), leaves `count` unchanged, and hands
the cleanup callback exactly the superseded record, once; a successful
`map_delete_free` of a stored record hands the callback exactly the removed
record, once. -/
theorem C5_update_callback {V : Type u} {m : MapState V} (hWF : WF m) :
    (∀ (item old : Rcd V), storedIn m.slots old → old.key = item.key →
      ∃ m', map_put_free (some m) item = some (m', [old]) ∧
        m'.count = m.count ∧
        map_get (some m') (some item.key) = some item) ∧
    (∀ (p : Nat) (d : Rcd V), m.slots.getD p none = some d →
      ∃ m2, map_delete_free (some m) d.key = some (some m2, [d])) := by
  obtain ⟨hcap, hcnt, hocc, hu, hreach, hmagic⟩ := id hWF
  constructor
  · intro item old hold hkey
    obtain ⟨pr, hpr⟩ := Option.isSome_iff_exists.mp
      (put_total hcap hcnt hu hocc item)
    obtain ⟨m', fr⟩ := pr
    obtain ⟨hcap', hcnt', hu', hreach', hmg', hlf', hgf', hcaple, hocc',
      hst', hfr⟩ := put_spec hcap hcnt hu hreach hocc hmagic hpr
    rcases hfr with ⟨old2, hst2, hk2, hfr2, hcnteq⟩ | ⟨hfreshk, hfr2, hcnteq⟩
    · obtain ⟨q, hq⟩ := hst2
      obtain ⟨q', hq'⟩ := hold
      have heqq := keysUniq_ext hu hq hq' (by rw [hk2, hkey])
      rw [heqq, hq'] at hq
      obtain rfl : old2 = old := by simpa using hq.symm
      refine ⟨m', ?_, hcnteq, put_get_roundtrip hpr⟩
      rw [hpr, hfr2]
    · exact absurd hkey (hfreshk old hold)
  · intro p d hp
    obtain ⟨m2, hres, -⟩ := delete_found_spec hWF hp
    exact ⟨m2, hres⟩

/-- Witness for C5: updating key `"a"` and deleting key `"a"` in the
concrete table `wMap2`. -/
theorem C5_update_callback_witness :
    (∃ m', map_put_free (some wMap2) (Rcd.mk "a" 9) =
        some (m', [Rcd.mk "a" 1]) ∧
      m'.count = wMap2.count ∧
      map_get (some m') (some (Rcd.mk "a" 9).key) = some (Rcd.mk "a" 9)) ∧
    (∃ m2, map_delete_free (some wMap2) (Rcd.mk "a" 1).key =
        some (some m2, [Rcd.mk "a" 1])) :=
  ⟨(C5_update_callback (show WF wMap2 by decide)).1 ⟨"a", 9⟩ ⟨"a", 1⟩
      ⟨0, by decide⟩ rfl,
   (C5_update_callback (show WF wMap2 by decide)).2 0 ⟨"a", 1⟩ (by decide)⟩

/-- C6: The lookup contract. A null handle or a null key yields not-found
with no error; whatever lookup returns is a stored record whose key is
content-equal to the sought key; when no stored record has the key —
including on a degenerate fully-occupied table — lookup returns not-found
(the start-bucket wrap guard bounds the scan by one full table); and under
the probing invariant lookup succeeds exactly on stored records. The model
is pure, so lookup trivially does not mutate the table. -/
theorem C6_lookup_contract {V : Type u} (m : MapState V) (key : String) :
    map_get (none : Option (MapState V)) (some key) = none ∧
    map_get (some m) none = none ∧
    (∀ r, map_get (some m) (some key) = some r →
      storedIn m.slots r ∧ r.key = key) ∧
    ((∀ p r, m.slots.getD p none = some r → r.key ≠ key) →
      map_get (some m) (some key) = none) ∧
    (0 < m.capacity → keysUniq m.slots → reachInv m.slots →
      ∀ r, map_get (some m) (some key) = some r ↔
        storedIn m.slots r ∧ r.key = key) := by
  refine ⟨rfl, rfl, ?_, ?_, ?_⟩
  · intro r h
    exact getImpl_some h
  · intro habs
    exact getImpl_none habs
  · intro hcap hu hreach r
    exact getImpl_iff hcap hu hreach

/-- C7: Minimum-capacity requests. On an absent handle,
`map_set_min_capacity` allocates a fresh empty table of capacity
`max(MAP_INIT_CAPACITY, min_cap)` with count 0; on a well-formed table it
succeeds, reaches at least the requested capacity, never shrinks, returns
the table unchanged when it is already big enough, and preserves count and
the stored records. -/
theorem C7_min_capacity {V : Type u} (minCap : Nat) :
    (map_set_min_capacity (none : Option (MapState V)) minCap =
      some (freshMap V (max MAP_INIT_CAPACITY minCap)) ∧
      (freshMap V (max MAP_INIT_CAPACITY minCap)).count = 0 ∧
      (freshMap V (max MAP_INIT_CAPACITY minCap)).capacity =
        max MAP_INIT_CAPACITY minCap) ∧
    ∀ m : MapState V, WF m →
      ∃ m', map_set_min_capacity (some m) minCap = some m' ∧
        minCap ≤ m'.capacity ∧
        m.capacity ≤ m'.capacity ∧
        (minCap ≤ m.capacity → m' = m) ∧
        m'.count = m.count ∧
        (∀ r, storedIn m'.slots r ↔ storedIn m.slots r) := by
  constructor
  · refine ⟨set_min_capacity_none minCap, rfl, ?_⟩
    show (List.replicate (max MAP_INIT_CAPACITY minCap)
      (none : Option (Rcd V))).length = max MAP_INIT_CAPACITY minCap
    rw [List.length_replicate]
  · intro m hWF
    obtain ⟨hcap, hcnt, hocc, hu, hreach, hmagic⟩ := hWF
    obtain ⟨m', hres, hle1, hle2, hsame, hcnt', hlf', hgf', hocceq, hu',
      hreach', hmg', hst'⟩ := set_min_capacity_spec minCap hu hreach hcnt
    exact ⟨m', hres, hle2, hle1, hsame, hcnt', hst'⟩

/-- C8: Integrity-tag validation. The `MAP_HEADER` check passes exactly
when the header's tag equals `MAP_MAGIC_NUMBER` (a mismatched handle fails
loudly), and every handle the engine itself produces — through any sequence
of puts, deletes, min-capacity requests, duplications, factor setters and
resizes from the absent handle — carries the tag, so the assertion never
fires on the engine's own handles. -/
theorem C8_magic_tag {V : Type u} {t : Option (MapState V)} (h : Reaches t) :
    (∀ m : MapState V, mapHeaderCheck m = true ↔
      m.magic_number = MAP_MAGIC_NUMBER) ∧
    (∀ m : MapState V, m.magic_number ≠ MAP_MAGIC_NUMBER →
      mapHeaderCheck m = false) ∧
    (∀ m, t = some m → mapHeaderCheck m = true) := by
  refine ⟨fun m => by simp [mapHeaderCheck], fun m hne => by
    simp [mapHeaderCheck, hne], ?_⟩
  intro m heq
  have hmg := (reaches_inv9 h m heq).2
  simp [mapHeaderCheck, hmg]

/-- Witness for C8 at a concrete engine-produced handle. -/
theorem C8_magic_tag_witness :
    mapHeaderCheck (freshMap Nat MAP_INIT_CAPACITY) = true :=
  (C8_magic_tag (Reaches.minCap Reaches.start
    (show map_set_min_capacity none MAP_INIT_CAPACITY =
      some (freshMap Nat MAP_INIT_CAPACITY) from rfl))).2.2 _ rfl

/-- C9: The implicit exact-count invariant. Every map reachable from the
absent handle by engine operations keeps `count` equal to exactly the
number of occupied slots (not merely at most that number). -/
theorem C9_count_exact {V : Type u} {t : Option (MapState V)}
    (h : Reaches t) :
    ∀ m : MapState V, t = some m → m.count = numOccupied m.slots :=
  fun m heq => (reaches_inv9 h m heq).1

/-- Witness for C9 at a concrete engine-produced handle. -/
theorem C9_count_exact_witness :
    (freshMap Nat MAP_INIT_CAPACITY).count =
      numOccupied (freshMap Nat MAP_INIT_CAPACITY).slots :=
  C9_count_exact (Reaches.minCap Reaches.start
    (show map_set_min_capacity none MAP_INIT_CAPACITY =
      some (freshMap Nat MAP_INIT_CAPACITY) from rfl)) _ rfl

/-- C10: Termination of insertion. On a well-formed table whose stored
load factor lies in (0, 1), `map_put_free` terminates (the unguarded
placement probe finds a matching or empty slot within `capacity` steps,
because the growth check keeps occupancy strictly below capacity), the
resulting table again has occupancy strictly below capacity, and a further
insertion terminates as well. -/
theorem C10_put_terminates {V : Type u} {m : MapState V} (hWF : WF m)
    (hlf : 0 < m.load_factor ∧ m.load_factor < 1) (item : Rcd V) :
    (map_put_free (some m) item).isSome = true ∧
    ∀ m' fr, map_put_free (some m) item = some (m', fr) →
      numOccupied m'.slots < m'.capacity ∧
      ∀ item2 : Rcd V, (map_put_free (some m') item2).isSome = true := by
  obtain ⟨hcap, hcnt, hocc, hu, hreach, hmagic⟩ := id hWF
  refine ⟨put_total hcap hcnt hu hocc item, ?_⟩
  intro m' fr hres
  obtain ⟨hcap', hcnt', hu', hreach', hmg', hlf', hgf', hcaple, hoccf, hst',
    hfr⟩ := put_spec hcap hcnt hu hreach hocc hmagic hres
  have hocc' : numOccupied m'.slots < m'.capacity := hoccf (le_of_lt hlf.2)
  exact ⟨hocc', fun item2 => put_total hcap' hcnt' hu' hocc' item2⟩

/-- Witness for C10 at the concrete table `wMap2`. -/
theorem C10_put_terminates_witness :
    (map_put_free (some wMap2) ⟨"d", 4⟩).isSome = true :=
  (C10_put_terminates (show WF wMap2 by decide)
    (by constructor <;> norm_num [wMap2]) ⟨"d", 4⟩).1

end SimpleDS
